import Mathlib

/-!
Verification of the OT (operational transformation) core of the
`online-docs` collaborative editing backend.

The Go source is shallowly embedded:

* `Operation`, `Transform` and its three helpers mirror
  `internal/ot/operation.go` and `internal/ot/transform.go`.
* `applyDoc` mirrors `Document.Apply` from `internal/ot/document.go`;
  the document content (`[]rune` in Go) becomes `List Char`, Go `int`
  becomes `Int`, and the mutate-or-error behaviour is made explicit by
  returning the (possibly unchanged) content together with an optional
  error.
* `Queue` and `queueApply` mirror `internal/ot/queue.go`.
* `DocData`, the `Store` functions and the loader mirror
  `internal/storage/memory.go` and the storage loader file.
* `SessionState`, `applyOperation` and `getState` mirror the collab
  session file.

Go's `OpType` is an `int` with constants `Insert = 0` and `Delete = 1`;
it is embedded as `Int` so that out-of-range tags (the `default` switch
branch) are representable.
-/

/-- The error taxonomy of the repository, collapsed into one inductive.
Each constructor corresponds to one of the sentinel `errors.New` values
(or inline error returns) in the Go source. -/
inductive Err where
  | invalidPosition
  | unknownKind
  | futureRevision
  | revisionTooOld
  | documentExists
  | documentNotFound
  | snapshotNotFound
  | accessDenied
  | sessionClosed
  deriving DecidableEq, Repr

/-- Go constant `Insert OpType = iota` (value 0). -/
def insertKind : Int := 0

/-- Go constant `Delete` (value 1). -/
def deleteKind : Int := 1

/-- Mirrors `ot.Operation`: a single edit.  `type` is the Go `OpType` (an int),
`position` a character index, `char` the inserted text, `userID` the
tie-break identity. -/
structure Operation where
  type : Int
  position : Int
  char : String
  userID : String
  deriving DecidableEq, Repr

/-- Mirrors `Operation.IsInsert`. -/
def Operation.isInsert (o : Operation) : Bool := o.type == insertKind

/-- Mirrors `Operation.IsDelete`. -/
def Operation.isDelete (o : Operation) : Bool := o.type == deleteKind

/-- Mirrors `Operation.IsNoop`: position `< 0` marks a no-op. -/
def Operation.isNoop (o : Operation) : Bool := o.position < 0

/-- Mirrors `NewInsert` constructor from `operation.go`. -/
def newInsert (char : String) (position : Int) (userID : String) : Operation :=
  ⟨insertKind, position, char, userID⟩

/-- Mirrors `NewDelete` constructor from `operation.go`. -/
def newDelete (position : Int) (userID : String) : Operation :=
  ⟨deleteKind, position, "", userID⟩

/-- Mirrors `transformInsertInsert` from `transform.go`. -/
def transformInsertInsert (op1 op2 : Operation) : Operation × Operation :=
  if op1.position < op2.position then
    (op1, { op2 with position := op2.position + 1 })
  else if op1.position > op2.position then
    ({ op1 with position := op1.position + 1 }, op2)
  else if op1.userID < op2.userID then
    (op1, { op2 with position := op2.position + 1 })
  else
    ({ op1 with position := op1.position + 1 }, op2)

/-- Mirrors `transformDeleteDelete` from `transform.go`. -/
def transformDeleteDelete (op1 op2 : Operation) : Operation × Operation :=
  if op1.position < op2.position then
    (op1, { op2 with position := op2.position - 1 })
  else if op1.position > op2.position then
    ({ op1 with position := op1.position - 1 }, op2)
  else
    ({ op1 with position := -1 }, { op2 with position := -1 })

/-- Mirrors `transformInsertDelete` from `transform.go` (first argument is the
insert, second the delete). -/
def transformInsertDelete (ins del : Operation) : Operation × Operation :=
  if ins.position ≤ del.position then
    (ins, { del with position := del.position + 1 })
  else
    ({ ins with position := ins.position - 1 }, del)

/-- Mirrors `Transform` from `transform.go`: dispatch on the operation kinds;
the `default` branch treats `op1` as the delete and `op2` as the
insert and swaps the results back. -/
def Transform (op1 op2 : Operation) : Operation × Operation :=
  if op1.isInsert && op2.isInsert then
    transformInsertInsert op1 op2
  else if op1.isDelete && op2.isDelete then
    transformDeleteDelete op1 op2
  else if op1.isInsert && op2.isDelete then
    transformInsertDelete op1 op2
  else
    let p := transformInsertDelete op2 op1
    (p.2, p.1)

/-- Mirrors `Document.applyInsert`: validates `0 ≤ position ≤ length`, then
splices `[]rune(op.Char)` between the two halves, mirroring the Go
slice appends.  Returns the new content, or the old content with an
error. -/
def applyInsertD (content : List Char) (op : Operation) : List Char × Option Err :=
  if op.position < 0 || op.position > (content.length : Int) then
    (content, some Err.invalidPosition)
  else
    (content.take op.position.toNat ++ op.char.data ++ content.drop op.position.toNat, none)

/-- Mirrors `Document.applyDelete`: validates `0 ≤ position < length`, then
removes the character at `position`. -/
def applyDeleteD (content : List Char) (op : Operation) : List Char × Option Err :=
  if op.position < 0 || op.position ≥ (content.length : Int) then
    (content, some Err.invalidPosition)
  else
    (content.take op.position.toNat ++ content.drop (op.position.toNat + 1), none)

/-- Mirrors `Document.Apply`: no-ops are silently ignored, then the switch on
`op.Type` dispatches to insert/delete, and any other tag is the
`unknown operation type` error. -/
def applyDoc (content : List Char) (op : Operation) : List Char × Option Err :=
  if op.isNoop then
    (content, none)
  else if op.type = insertKind then
    applyInsertD content op
  else if op.type = deleteKind then
    applyDeleteD content op
  else
    (content, some Err.unknownKind)

/-- Sequential application of two operations, propagating the first
error; the content returned alongside an error is the content at the
moment of failure (Go mutates nothing on a failing `Apply`). -/
def apply2 (content : List Char) (x y : Operation) : List Char × Option Err :=
  match applyDoc content x with
  | (c1, none) => applyDoc c1 y
  | (c1, some e) => (c1, some e)

/-- An operation whose position is valid for `content`: inserts may
target `[0, n]`, deletes `[0, n)` (spec §3, "Document"). -/
def validOp (content : List Char) (op : Operation) : Prop :=
  (op.type = insertKind ∧ 0 ≤ op.position ∧ op.position ≤ (content.length : Int)) ∨
  (op.type = deleteKind ∧ 0 ≤ op.position ∧ op.position < (content.length : Int))

instance (content : List Char) (op : Operation) : Decidable (validOp content op) := by
  unfold validOp
  infer_instance

/-! ### List splicing lemmas

`insNat`/`delNat` are the Nat-indexed cores of `applyInsertD` and
`applyDeleteD`; the commutation lemmas below are the combinatorial
heart of the convergence property. -/

/-- Insert a block at index `i` (the Go slice splice, Nat-indexed). -/
def insNat (l : List α) (i : Nat) (xs : List α) : List α :=
  l.take i ++ xs ++ l.drop i

/-- Delete the element at index `i` (Nat-indexed). -/
def delNat (l : List α) (i : Nat) : List α :=
  l.take i ++ l.drop (i + 1)

/-! ### Queue (`internal/ot/queue.go`) -/

/-- Mirrors `ot.SequencedOperation`: an operation plus its assigned revision. -/
structure SequencedOperation where
  op : Operation
  revision : Int
  deriving DecidableEq, Repr

/-- Mirrors `ot.Queue` state: current revision, retained history, and the
configured maximum history size. -/
structure Queue where
  revision : Int
  history : List SequencedOperation
  historySize : Int
  deriving DecidableEq, Repr

/-- Mirrors `NewQueue`. -/
def newQueue (historySize : Int) : Queue :=
  ⟨0, [], historySize⟩

/-- The transform loop of `Queue.Apply`: fold the incoming operation
over every history entry with revision above the base, keeping only
the first component of each `Transform`. -/
def transformAgainst (op : Operation) (baseRevision : Int)
    (hist : List SequencedOperation) : Operation :=
  hist.foldl (fun acc h => if h.revision > baseRevision then (Transform acc h.op).1 else acc) op

/-- Mirrors `Queue.addToHistory`: append, then drop the oldest entry if the
size bound is exceeded. -/
def addToHistory (q : Queue) (so : SequencedOperation) : Queue :=
  let h := q.history ++ [so]
  if (h.length : Int) > q.historySize then
    { q with history := h.drop 1 }
  else
    { q with history := h }

/-- The success path of `Queue.Apply`: transform, increment the
revision, wrap, and add to history. -/
def queueApplyExec (q : Queue) (op : Operation) (baseRevision : Int) :
    Queue × SequencedOperation :=
  let so : SequencedOperation := ⟨transformAgainst op baseRevision q.history, q.revision + 1⟩
  (addToHistory { q with revision := q.revision + 1 } so, so)

/-- Mirrors `Queue.Apply`: reject future base revisions, reject base revisions
older than `oldest - 1` when any history is retained, otherwise run
the success path.  The returned queue is the mutated state. -/
def queueApply (q : Queue) (op : Operation) (baseRevision : Int) :
    Except Err (Queue × SequencedOperation) :=
  if baseRevision > q.revision then
    .error Err.futureRevision
  else
    match q.history with
    | h0 :: _ =>
      if baseRevision < q.revision ∧ baseRevision < h0.revision - 1 then
        .error Err.revisionTooOld
      else
        .ok (queueApplyExec q op baseRevision)
    | [] => .ok (queueApplyExec q op baseRevision)

/-- One `Apply` call viewed as a state transition: a failing call
leaves the queue untouched (the Go code mutates nothing before the
error returns). -/
def queueApplyState (q : Queue) (op : Operation) (baseRevision : Int) : Queue :=
  match queueApply q op baseRevision with
  | .ok (q', _) => q'
  | .error _ => q

/-- A whole sequence of `Apply` calls. -/
def applySeq (q : Queue) (ops : List (Operation × Int)) : Queue :=
  ops.foldl (fun acc p => queueApplyState acc p.1 p.2) q

/-- Queue states reachable from `NewQueue` by any sequence of `Apply`
calls (failing calls included — they do not change the state). -/
def QueueReachable (cap : Int) (q : Queue) : Prop :=
  ∃ ops, applySeq (newQueue cap) ops = q

/-- The list `[s, s+1, ..., s+n-1]` of consecutive integers
(`intRange s n`). -/
def intRange : Int → Nat → List Int
  | _, 0 => []
  | s, n + 1 => s :: intRange (s + 1) n

/-- Invariant maintained by the queue: the history holds exactly the
`history.length` most recent revisions (contiguous, ascending, ending
at the current revision) and never exceeds the capacity. -/
def QueueInv (cap : Int) (q : Queue) : Prop :=
  q.historySize = cap ∧
  q.history.map (fun so => so.revision)
    = intRange (q.revision - q.history.length + 1) q.history.length ∧
  q.history.length ≤ cap.toNat

/-- Mirrors `Document.Len`: the number of stored elements — Go counts entries
of the `[]rune` slice, i.e. Unicode code points. -/
def docLen (content : List Char) : Nat := content.length

/-! ### Storage (`internal/storage/memory.go` and the loader) -/

/-- Mirrors `storage.Snapshot` (the `CreatedAt` wall-clock field is omitted:
no claim concerns it).  Content is modelled as a rune list, like the
document. -/
structure Snapshot where
  docID : String
  revision : Int
  content : List Char
  deriving DecidableEq, Repr

/-- Mirrors `documentData`: everything the memory store holds for one
document. -/
structure DocData where
  snapshot : Option Snapshot
  operations : List SequencedOperation
  deriving DecidableEq, Repr

/-- Mirrors `MemoryStore`: the `docs` map, modelled as a function from ids. -/
def Store := String → Option DocData

/-- Mirrors `NewMemoryStore`. -/
def emptyStore : Store := fun _ => none

/-- Update one key of the store map. -/
def updateStore (st : Store) (id : String) (d : DocData) : Store :=
  fun k => if k = id then some d else st k

/-- Mirrors `MemoryStore.CreateDocument`. -/
def createDocument (st : Store) (id : String) : Except Err Store :=
  match st id with
  | some _ => .error Err.documentExists
  | none => .ok (updateStore st id ⟨none, []⟩)

/-- Mirrors `MemoryStore.pruneOperations`: keep only operations with revision
above the snapshot revision. -/
def pruneOperations (d : DocData) (snapshotRevision : Int) : DocData :=
  { d with operations := d.operations.filter (fun op => op.revision > snapshotRevision) }

/-- Mirrors `MemoryStore.SaveSnapshot`: overwrite the snapshot, then prune. -/
def saveSnapshot (st : Store) (id : String) (revision : Int) (content : List Char) :
    Except Err Store :=
  match st id with
  | none => .error Err.documentNotFound
  | some d =>
    .ok (updateStore st id
      (pruneOperations { d with snapshot := some ⟨id, revision, content⟩ } revision))

/-- Mirrors `MemoryStore.LoadSnapshot`. -/
def loadSnapshot (st : Store) (id : String) : Except Err Snapshot :=
  match st id with
  | none => .error Err.documentNotFound
  | some d =>
    match d.snapshot with
    | none => .error Err.snapshotNotFound
    | some s => .ok s

/-- Mirrors `MemoryStore.AppendOperation`. -/
def appendOperation (st : Store) (id : String) (so : SequencedOperation) : Except Err Store :=
  match st id with
  | none => .error Err.documentNotFound
  | some d => .ok (updateStore st id { d with operations := d.operations ++ [so] })

/-- Mirrors `MemoryStore.LoadOperations`: all operations with revision above
`sinceRevision`, in log order. -/
def loadOperations (st : Store) (id : String) (sinceRevision : Int) :
    Except Err (List SequencedOperation) :=
  match st id with
  | none => .error Err.documentNotFound
  | some d => .ok (d.operations.filter (fun op => op.revision > sinceRevision))

/-- The per-document value computed by `MemoryStore.LatestRevision`:
the last logged operation's revision, else the snapshot revision,
else 0. -/
def latestRevisionD (d : DocData) : Int :=
  match d.operations.getLast? with
  | some o => o.revision
  | none =>
    match d.snapshot with
    | some s => s.revision
    | none => 0

/-- Mirrors `MemoryStore.LatestRevision`. -/
def latestRevision (st : Store) (id : String) : Except Err Int :=
  match st id with
  | none => .error Err.documentNotFound
  | some d => .ok (latestRevisionD d)

/-- The spec's wording for `latestRevision`: the maximum revision over
all logged operations and the snapshot, 0 when there are neither. -/
def specLatestRevision (d : DocData) : Int :=
  match d.operations.map (fun so => so.revision)
      ++ (match d.snapshot with | some s => [s.revision] | none => []) with
  | [] => 0
  | r :: rest => rest.foldl max r

/-- The store obtained by creating document `d` and then appending
operations with revisions 5 and then 3 — a call sequence the Store
contract accepts. -/
def claim7Store : Store :=
  match createDocument emptyStore "d" with
  | .error _ => emptyStore
  | .ok st1 =>
    match appendOperation st1 "d" ⟨⟨insertKind, 0, "a", "u"⟩, 5⟩ with
    | .error _ => emptyStore
    | .ok st2 =>
      match appendOperation st2 "d" ⟨⟨insertKind, 0, "b", "u"⟩, 3⟩ with
      | .error _ => emptyStore
      | .ok st3 => st3

/-- Mirrors `storage.Operation`: the loader's mirror of `ot.Operation` (no
user id). -/
structure LoaderOp where
  type : Int
  position : Int
  char : String
  deriving DecidableEq, Repr

/-- Mirrors `storage.LoadResult`. -/
structure LoadResult where
  content : List Char
  revision : Int
  isNew : Bool
  deriving DecidableEq, Repr

/-- Mirrors `storage.ApplyFunc`. -/
def ApplyFunc := List Char → LoaderOp → Except Err (List Char)

/-- The replay loop of `DocumentLoader.Load`: fold the operation tail
over the content, tracking the last replayed revision (the incoming
revision is returned when the tail is empty). -/
def replayLoop (applyOp : ApplyFunc) :
    List Char → Int → List SequencedOperation → Except Err (List Char × Int)
  | content, rev, [] => .ok (content, rev)
  | content, _, so :: rest =>
    match applyOp content ⟨so.op.type, so.op.position, so.op.char⟩ with
    | .error e => .error e
    | .ok c2 => replayLoop applyOp c2 so.revision rest

/-- The tail of `DocumentLoader.Load` after the snapshot has been
resolved to a starting content and revision. -/
def loaderLoadFrom (st : Store) (id : String) (applyOp : ApplyFunc)
    (content : List Char) (startRevision : Int) : Except Err LoadResult :=
  match loadOperations st id startRevision with
  | .error e => .error e
  | .ok ops =>
    match replayLoop applyOp content startRevision ops with
    | .error e => .error e
    | .ok (c2, rev) => .ok ⟨c2, rev, startRevision == 0 && ops.isEmpty⟩

/-- Mirrors `DocumentLoader.Load`: resolve the snapshot (`SnapshotNotFound`
recovers to empty content at revision 0), then load and replay the
operation tail. -/
def loaderLoad (st : Store) (id : String) (applyOp : ApplyFunc) : Except Err LoadResult :=
  match loadSnapshot st id with
  | .error Err.snapshotNotFound => loaderLoadFrom st id applyOp [] 0
  | .error e => .error e
  | .ok s => loaderLoadFrom st id applyOp s.content s.revision

/-- The session's `applyOp` adapter: build a one-shot document from
the content, apply (user id empty), return the new content. -/
def sessionApplyOp : ApplyFunc := fun content op =>
  match applyDoc content ⟨op.type, op.position, op.char, ""⟩ with
  | (c2, none) => .ok c2
  | (_, some e) => .error e

/-- An operation log with consecutive revisions starting at `r`. -/
def mkLog : List Operation → Int → List SequencedOperation
  | [], _ => []
  | o :: rest, r => ⟨o, r⟩ :: mkLog rest (r + 1)

/-! ### Session (collab package) -/

/-- Go `acl.ActionRead` (0). -/
def actionRead : Int := 0

/-- Go `acl.ActionWrite` (1). -/
def actionWrite : Int := 1

/-- The snapshot policy state: threshold and the per-document counter
map. -/
structure PolicyState where
  threshold : Int
  opsSinceSnapshot : String → Int

/-- One message handed to `Hub.BroadcastOperation` (docID, revision,
op type, position, char, user id, excluded originating client id). -/
structure BroadcastMsg where
  docID : String
  revision : Int
  opType : Int
  position : Int
  char : String
  userID : String
  excludeClientID : String

/-- Mirrors `collab.Session` state: the document content, the queue, the
closed flag, and the injected collaborators.  The permission checker
is modelled as an optional function returning the error
`RequirePermission` would return (none when allowed); the hub by a
presence flag (broadcasts are collected as outputs). -/
structure SessionState where
  docID : String
  document : List Char
  queue : Queue
  closed : Bool
  store : Store
  permChecker : Option (String → String → Int → Option Err)
  hubPresent : Bool
  snapshotPolicy : Option PolicyState

/-- Mirrors `Session.checkWritePermission`: nil checker means allowed. -/
def checkWritePermission (s : SessionState) (userID : String) : Option Err :=
  match s.permChecker with
  | none => none
  | some c => c s.docID userID actionWrite

/-- Mirrors `Session.applyAndPersist`: queue, then document, then store; each
failure returns immediately, keeping the mutations made so far. -/
def applyAndPersist (s : SessionState) (op : Operation) (baseRevision : Int) :
    SessionState × Except Err SequencedOperation :=
  match queueApply s.queue op baseRevision with
  | .error e => (s, .error e)
  | .ok (q2, seqOp) =>
    let s1 := { s with queue := q2 }
    match applyDoc s1.document seqOp.op with
    | (_, some e) => (s1, .error e)
    | (c2, none) =>
      let s2 := { s1 with document := c2 }
      match appendOperation s2.store s2.docID seqOp with
      | .error e => (s2, .error e)
      | .ok st2 => ({ s2 with store := st2 }, .ok seqOp)

/-- Mirrors `Session.maybeSnapshot`: record the operation; when the counter
reaches the threshold, attempt a snapshot (errors swallowed) and
reset the counter. -/
def maybeSnapshot (s : SessionState) : SessionState :=
  match s.snapshotPolicy with
  | none => s
  | some p =>
    let cnt := p.opsSinceSnapshot s.docID + 1
    if cnt ≥ p.threshold then
      let st2 := (match saveSnapshot s.store s.docID s.queue.revision s.document with
        | .ok st2 => st2
        | .error _ => s.store)
      { s with
        store := st2
        snapshotPolicy := some ⟨p.threshold,
          fun k => if k = s.docID then 0 else p.opsSinceSnapshot k⟩ }
    else
      { s with snapshotPolicy := some ⟨p.threshold,
        fun k => if k = s.docID then cnt else p.opsSinceSnapshot k⟩ }

/-- Mirrors `Session.broadcast`: emit one message when a hub is present. -/
def sessionBroadcast (s : SessionState) (clientID userID : String)
    (seqOp : SequencedOperation) : List BroadcastMsg :=
  if s.hubPresent then
    [⟨s.docID, seqOp.revision, seqOp.op.type, seqOp.op.position, seqOp.op.char,
      userID, clientID⟩]
  else
    []

/-- Mirrors `Session.ApplyOperation`: permission check, closed check, apply
and persist, maybe snapshot, broadcast.  Returns the final state, the
emitted broadcasts and the assigned revision or the error. -/
def applyOperation (s : SessionState) (clientID userID : String) (op : Operation)
    (baseRevision : Int) : SessionState × List BroadcastMsg × Except Err Int :=
  match checkWritePermission s userID with
  | some e => (s, [], .error e)
  | none =>
    if s.closed then
      (s, [], .error Err.sessionClosed)
    else
      match applyAndPersist s op baseRevision with
      | (s1, .error e) => (s1, [], .error e)
      | (s1, .ok seqOp) =>
        let s2 := maybeSnapshot s1
        (s2, sessionBroadcast s2 clientID userID seqOp, .ok seqOp.revision)

/-- Mirrors `Session.GetState`: read-permission check, then closed check, then
the consistent content/revision pair. -/
def getState (s : SessionState) (userID : String) : Except Err (List Char × Int) :=
  match s.permChecker with
  | some c =>
    match c s.docID userID actionRead with
    | some e => .error e
    | none =>
      if s.closed then .error Err.sessionClosed
      else .ok (s.document, s.queue.revision)
  | none =>
    if s.closed then .error Err.sessionClosed
    else .ok (s.document, s.queue.revision)

example : applyDoc "HELLO".data (newInsert "X" 2 "alice") = ("HEXLLO".data, none) := by decide
example : applyDoc "HELLO".data (newDelete 2 "bob") = ("HELO".data, none) := by decide
example :
    apply2 "HELLO".data (newInsert "X" 2 "alice")
      (Transform (newInsert "X" 2 "alice") (newDelete 2 "bob")).2 = ("HEXLO".data, none) := by
  decide
example :
    apply2 "HELLO".data (newDelete 2 "bob")
      (Transform (newInsert "X" 2 "alice") (newDelete 2 "bob")).1 = ("HEXLO".data, none) := by
  decide

theorem insNat_zero (l : List α) (xs : List α) : insNat l 0 xs = xs ++ l := by
  simp [insNat]

theorem insNat_succ_cons (a : α) (l : List α) (i : Nat) (xs : List α) :
    insNat (a :: l) (i + 1) xs = a :: insNat l i xs := by
  simp [insNat]

theorem delNat_zero_cons (a : α) (l : List α) : delNat (a :: l) 0 = l := by
  simp [delNat]

theorem delNat_succ_cons (a : α) (l : List α) (i : Nat) :
    delNat (a :: l) (i + 1) = a :: delNat l i := by
  simp [delNat]

theorem insNat_length (l : List α) (i : Nat) (xs : List α) (h : i ≤ l.length) :
    (insNat l i xs).length = l.length + xs.length := by
  simp [insNat]
  omega

theorem delNat_length (l : List α) (i : Nat) (h : i < l.length) :
    (delNat l i).length = l.length - 1 := by
  simp [delNat]
  omega

/-- Two inserts commute: inserting `x` at `i` and then `y` at `j + 1`
equals inserting `y` at `j` and then `x` at `i`, for `i ≤ j ≤ length`. -/
theorem insNat_insNat_comm (x y : α) :
    ∀ (i j : Nat) (l : List α), i ≤ j → j ≤ l.length →
      insNat (insNat l i [x]) (j + 1) [y] = insNat (insNat l j [y]) i [x] := by
  intro i
  induction i with
  | zero =>
    intro j l _ hj
    rw [insNat_zero, show [x] ++ l = x :: l from rfl, insNat_succ_cons, insNat_zero]
    rfl
  | succ i ih =>
    intro j l hij hj
    obtain ⟨j, rfl⟩ : ∃ j', j = j' + 1 := ⟨j - 1, by omega⟩
    cases l with
    | nil => simp at hj
    | cons a l =>
      rw [insNat_succ_cons, insNat_succ_cons, insNat_succ_cons, insNat_succ_cons]
      exact congrArg (a :: ·) (ih j l (by omega) (by simpa using hj))

/-- Two deletes commute: deleting index `i` and then `j` equals
deleting `j + 1` and then `i`, for `i ≤ j`, `j + 1 < length`. -/
theorem delNat_delNat_comm :
    ∀ (i j : Nat) (l : List α), i ≤ j → j + 1 < l.length →
      delNat (delNat l i) j = delNat (delNat l (j + 1)) i := by
  intro i
  induction i with
  | zero =>
    intro j l _ hj
    cases l with
    | nil => simp at hj
    | cons a l =>
      rw [delNat_zero_cons, delNat_succ_cons, delNat_zero_cons]
  | succ i ih =>
    intro j l hij hj
    obtain ⟨j, rfl⟩ : ∃ j', j = j' + 1 := ⟨j - 1, by omega⟩
    cases l with
    | nil => simp at hj
    | cons a l =>
      rw [delNat_succ_cons, delNat_succ_cons, delNat_succ_cons, delNat_succ_cons]
      exact congrArg (a :: ·) (ih j l (by omega) (by simpa using hj))

/-- An insert at `i` followed by deleting `j + 1` equals deleting `j`
followed by the same insert, for `i ≤ j < length` (the transformed
pair in the insert-before-delete case). -/
theorem delNat_insNat_le (x : α) :
    ∀ (i j : Nat) (l : List α), i ≤ j → j < l.length →
      delNat (insNat l i [x]) (j + 1) = insNat (delNat l j) i [x] := by
  intro i
  induction i with
  | zero =>
    intro j l _ hj
    rw [insNat_zero, show [x] ++ l = x :: l from rfl, delNat_succ_cons, insNat_zero]
    rfl
  | succ i ih =>
    intro j l hij hj
    obtain ⟨j, rfl⟩ : ∃ j', j = j' + 1 := ⟨j - 1, by omega⟩
    cases l with
    | nil => simp at hj
    | cons a l =>
      rw [insNat_succ_cons, delNat_succ_cons, delNat_succ_cons, insNat_succ_cons]
      exact congrArg (a :: ·) (ih j l (by omega) (by simpa using hj))

/-- An insert at `i + 1` followed by deleting `j ≤ i` equals deleting
`j` followed by inserting at `i` (the transformed pair in the
insert-after-delete case), for `i < length`. -/
theorem delNat_insNat_gt (x : α) :
    ∀ (j i : Nat) (l : List α), j ≤ i → i < l.length →
      delNat (insNat l (i + 1) [x]) j = insNat (delNat l j) i [x] := by
  intro j
  induction j with
  | zero =>
    intro i l _ hi
    cases l with
    | nil => simp at hi
    | cons a l =>
      rw [insNat_succ_cons, delNat_zero_cons, delNat_zero_cons]
  | succ j ih =>
    intro i l hji hi
    obtain ⟨i, rfl⟩ : ∃ i', i = i' + 1 := ⟨i - 1, by omega⟩
    cases l with
    | nil => simp at hi
    | cons a l =>
      rw [insNat_succ_cons, delNat_succ_cons, delNat_succ_cons, insNat_succ_cons]
      exact congrArg (a :: ·) (ih i l (by omega) (by simpa using hi))

/-! ### Bridging `applyDoc` to the Nat-indexed splices -/

theorem applyDoc_insert_eq (content : List Char) (op : Operation)
    (ht : op.type = insertKind) (h0 : 0 ≤ op.position)
    (hn : op.position ≤ (content.length : Int)) :
    applyDoc content op = (insNat content op.position.toNat op.char.data, none) := by
  have h1 : ¬op.position < 0 := by omega
  have h2 : ¬op.position > (content.length : Int) := by omega
  simp [applyDoc, Operation.isNoop, ht, insertKind, applyInsertD, h1, h2, insNat]

theorem applyDoc_delete_eq (content : List Char) (op : Operation)
    (ht : op.type = deleteKind) (h0 : 0 ≤ op.position)
    (hn : op.position < (content.length : Int)) :
    applyDoc content op = (delNat content op.position.toNat, none) := by
  have h1 : ¬op.position < 0 := by omega
  have h2 : ¬op.position ≥ (content.length : Int) := by omega
  simp [applyDoc, Operation.isNoop, ht, insertKind, deleteKind, applyDeleteD, h1, h2, delNat]

theorem applyDoc_noop_eq (content : List Char) (op : Operation) (h : op.position < 0) :
    applyDoc content op = (content, none) := by
  simp [applyDoc, Operation.isNoop, h]

theorem apply2_ok (content c1 : List Char) (x y : Operation)
    (h : applyDoc content x = (c1, none)) : apply2 content x y = applyDoc c1 y := by
  simp only [apply2, h]

/-! ### Convergence helpers, one per transform shape -/

/-- Insert/insert with `a` at or before `b`: applying `a` then the
shifted `b` agrees with applying `b` then the unchanged `a`. -/
theorem conv_II_shift2 (l : List Char) (a b : Operation)
    (hta : a.type = insertKind) (htb : b.type = insertKind)
    (ha0 : 0 ≤ a.position) (hb0 : 0 ≤ b.position)
    (han : a.position ≤ (l.length : Int)) (hbn : b.position ≤ (l.length : Int))
    (hca : a.char.data.length = 1) (hcb : b.char.data.length = 1)
    (hij : a.position ≤ b.position) :
    ∃ c, apply2 l a { b with position := b.position + 1 } = (c, none) ∧
      apply2 l b a = (c, none) := by
  obtain ⟨xa, hxa⟩ := List.length_eq_one.mp hca
  obtain ⟨xb, hxb⟩ := List.length_eq_one.mp hcb
  have e1 : applyDoc l a = (insNat l a.position.toNat a.char.data, none) :=
    applyDoc_insert_eq l a hta ha0 han
  have hlen1 : (insNat l a.position.toNat a.char.data).length = l.length + 1 := by
    rw [insNat_length l _ _ (by omega), hca]
  have e2 : applyDoc (insNat l a.position.toNat a.char.data) { b with position := b.position + 1 }
      = (insNat (insNat l a.position.toNat a.char.data) (b.position + 1).toNat b.char.data,
        none) := by
    refine applyDoc_insert_eq _ _ htb (by simp; omega) ?_
    rw [hlen1]
    push_cast
    omega
  have e3 : applyDoc l b = (insNat l b.position.toNat b.char.data, none) :=
    applyDoc_insert_eq l b htb hb0 hbn
  have hlen3 : (insNat l b.position.toNat b.char.data).length = l.length + 1 := by
    rw [insNat_length l _ _ (by omega), hcb]
  have e4 : applyDoc (insNat l b.position.toNat b.char.data) a
      = (insNat (insNat l b.position.toNat b.char.data) a.position.toNat a.char.data, none) := by
    refine applyDoc_insert_eq _ _ hta ha0 ?_
    rw [hlen3]
    push_cast
    omega
  refine ⟨insNat (insNat l b.position.toNat b.char.data) a.position.toNat a.char.data, ?_, ?_⟩
  · rw [apply2_ok l _ a _ e1, e2]
    have ht : (b.position + 1).toNat = b.position.toNat + 1 := by omega
    rw [ht, hxa, hxb]
    exact congrArg (fun z => (z, (none : Option Err)))
      (insNat_insNat_comm xa xb a.position.toNat b.position.toNat l (by omega) (by omega))
  · rw [apply2_ok l _ b _ e3, e4, hxa, hxb]

/-- Delete/delete with `a` strictly before `b`: applying `a` then the
left-shifted `b` agrees with applying `b` then the unchanged `a`. -/
theorem conv_DD_shift2 (l : List Char) (a b : Operation)
    (hta : a.type = deleteKind) (htb : b.type = deleteKind)
    (ha0 : 0 ≤ a.position) (hbn : b.position < (l.length : Int))
    (hij : a.position < b.position) :
    ∃ c, apply2 l a { b with position := b.position - 1 } = (c, none) ∧
      apply2 l b a = (c, none) := by
  have e1 : applyDoc l a = (delNat l a.position.toNat, none) :=
    applyDoc_delete_eq l a hta ha0 (by omega)
  have hlen1 : (delNat l a.position.toNat).length = l.length - 1 :=
    delNat_length l _ (by omega)
  have e2 : applyDoc (delNat l a.position.toNat) { b with position := b.position - 1 }
      = (delNat (delNat l a.position.toNat) (b.position - 1).toNat, none) := by
    refine applyDoc_delete_eq _ _ (by simpa using htb) (by simp; omega) ?_
    have hp : ({ b with position := b.position - 1 } : Operation).position = b.position - 1 := rfl
    rw [hp, hlen1]
    omega
  have e3 : applyDoc l b = (delNat l b.position.toNat, none) :=
    applyDoc_delete_eq l b htb (by omega) hbn
  have hlen3 : (delNat l b.position.toNat).length = l.length - 1 :=
    delNat_length l _ (by omega)
  have e4 : applyDoc (delNat l b.position.toNat) a
      = (delNat (delNat l b.position.toNat) a.position.toNat, none) := by
    refine applyDoc_delete_eq _ _ hta ha0 ?_
    rw [hlen3]
    omega
  refine ⟨delNat (delNat l b.position.toNat) a.position.toNat, ?_, ?_⟩
  · rw [apply2_ok l _ a _ e1, e2]
    have hj : (b.position - 1).toNat + 1 = b.position.toNat := by omega
    refine congrArg (fun z => (z, (none : Option Err))) ?_
    rw [← hj]
    exact delNat_delNat_comm a.position.toNat _ l (by omega) (by omega)
  · rw [apply2_ok l _ b _ e3, e4]

/-- Insert before (or at) a delete: applying the insert then the
right-shifted delete agrees with applying the delete then the
unchanged insert. -/
theorem conv_ID_le (l : List Char) (a b : Operation)
    (hta : a.type = insertKind) (htb : b.type = deleteKind)
    (ha0 : 0 ≤ a.position) (hb0 : 0 ≤ b.position)
    (hbn : b.position < (l.length : Int)) (hca : a.char.data.length = 1)
    (hij : a.position ≤ b.position) :
    ∃ c, apply2 l a { b with position := b.position + 1 } = (c, none) ∧
      apply2 l b a = (c, none) := by
  obtain ⟨xa, hxa⟩ := List.length_eq_one.mp hca
  have e1 : applyDoc l a = (insNat l a.position.toNat a.char.data, none) :=
    applyDoc_insert_eq l a hta ha0 (by omega)
  have hlen1 : (insNat l a.position.toNat a.char.data).length = l.length + 1 := by
    rw [insNat_length l _ _ (by omega), hca]
  have e2 : applyDoc (insNat l a.position.toNat a.char.data) { b with position := b.position + 1 }
      = (delNat (insNat l a.position.toNat a.char.data) (b.position + 1).toNat, none) := by
    refine applyDoc_delete_eq _ _ (by simpa using htb) (by simp; omega) ?_
    rw [hlen1]
    push_cast
    omega
  have e3 : applyDoc l b = (delNat l b.position.toNat, none) :=
    applyDoc_delete_eq l b htb hb0 hbn
  have hlen3 : (delNat l b.position.toNat).length = l.length - 1 :=
    delNat_length l _ (by omega)
  have e4 : applyDoc (delNat l b.position.toNat) a
      = (insNat (delNat l b.position.toNat) a.position.toNat a.char.data, none) := by
    refine applyDoc_insert_eq _ _ hta ha0 ?_
    rw [hlen3]
    omega
  refine ⟨insNat (delNat l b.position.toNat) a.position.toNat a.char.data, ?_, ?_⟩
  · rw [apply2_ok l _ a _ e1, e2]
    have hj : (b.position + 1).toNat = b.position.toNat + 1 := by omega
    rw [hj, hxa]
    exact congrArg (fun z => (z, (none : Option Err)))
      (delNat_insNat_le xa a.position.toNat b.position.toNat l (by omega) (by omega))
  · rw [apply2_ok l _ b _ e3, e4]

/-- Insert strictly after a delete: applying the insert then the
unchanged delete agrees with applying the delete then the left-shifted
insert. -/
theorem conv_ID_gt (l : List Char) (a b : Operation)
    (hta : a.type = insertKind) (htb : b.type = deleteKind)
    (han : a.position ≤ (l.length : Int)) (hb0 : 0 ≤ b.position)
    (hbn : b.position < (l.length : Int)) (hca : a.char.data.length = 1)
    (hij : b.position < a.position) :
    ∃ c, apply2 l a b = (c, none) ∧
      apply2 l b { a with position := a.position - 1 } = (c, none) := by
  obtain ⟨xa, hxa⟩ := List.length_eq_one.mp hca
  have e1 : applyDoc l a = (insNat l a.position.toNat a.char.data, none) :=
    applyDoc_insert_eq l a hta (by omega) han
  have hlen1 : (insNat l a.position.toNat a.char.data).length = l.length + 1 := by
    rw [insNat_length l _ _ (by omega), hca]
  have e2 : applyDoc (insNat l a.position.toNat a.char.data) b
      = (delNat (insNat l a.position.toNat a.char.data) b.position.toNat, none) := by
    refine applyDoc_delete_eq _ _ htb hb0 ?_
    rw [hlen1]
    push_cast
    omega
  have e3 : applyDoc l b = (delNat l b.position.toNat, none) :=
    applyDoc_delete_eq l b htb hb0 hbn
  have hlen3 : (delNat l b.position.toNat).length = l.length - 1 :=
    delNat_length l _ (by omega)
  have e4 : applyDoc (delNat l b.position.toNat) { a with position := a.position - 1 }
      = (insNat (delNat l b.position.toNat) (a.position - 1).toNat a.char.data, none) := by
    refine applyDoc_insert_eq _ _ (by simpa using hta) (by simp; omega) ?_
    have hp : ({ a with position := a.position - 1 } : Operation).position = a.position - 1 := rfl
    rw [hp, hlen3]
    omega
  refine ⟨insNat (delNat l b.position.toNat) (a.position - 1).toNat a.char.data, ?_, ?_⟩
  · rw [apply2_ok l _ a _ e1, e2]
    have hi : (a.position - 1).toNat + 1 = a.position.toNat := by omega
    rw [hxa]
    refine congrArg (fun z => (z, (none : Option Err))) ?_
    rw [← hi]
    exact delNat_insNat_gt xa b.position.toNat _ l (by omega) (by omega)
  · rw [apply2_ok l _ b _ e3, e4, hxa]

/-- Convergence for two valid single-character inserts. -/
theorem conv_insert_insert (l : List Char) (a b : Operation)
    (hta : a.type = insertKind) (htb : b.type = insertKind)
    (ha0 : 0 ≤ a.position) (hb0 : 0 ≤ b.position)
    (han : a.position ≤ (l.length : Int)) (hbn : b.position ≤ (l.length : Int))
    (hca : a.char.data.length = 1) (hcb : b.char.data.length = 1) :
    ∃ c, apply2 l a (transformInsertInsert a b).2 = (c, none) ∧
      apply2 l b (transformInsertInsert a b).1 = (c, none) := by
  rcases lt_trichotomy a.position b.position with hlt | heq | hgt
  · have hT : transformInsertInsert a b = (a, { b with position := b.position + 1 }) := by
      simp [transformInsertInsert, hlt]
    rw [hT]
    exact conv_II_shift2 l a b hta htb ha0 hb0 han hbn hca hcb (le_of_lt hlt)
  · by_cases hu : a.userID < b.userID
    · have hT : transformInsertInsert a b = (a, { b with position := b.position + 1 }) := by
        simp [transformInsertInsert, heq, hu]
      rw [hT]
      exact conv_II_shift2 l a b hta htb ha0 hb0 han hbn hca hcb (le_of_eq heq)
    · have hT : transformInsertInsert a b = ({ a with position := a.position + 1 }, b) := by
        simp [transformInsertInsert, heq, hu]
      rw [hT]
      obtain ⟨c, h1, h2⟩ :=
        conv_II_shift2 l b a htb hta hb0 ha0 hbn han hcb hca (le_of_eq heq.symm)
      exact ⟨c, h2, h1⟩
  · have hT : transformInsertInsert a b = ({ a with position := a.position + 1 }, b) := by
      simp [transformInsertInsert, hgt, show ¬a.position < b.position by omega]
    rw [hT]
    obtain ⟨c, h1, h2⟩ :=
      conv_II_shift2 l b a htb hta hb0 ha0 hbn han hcb hca (le_of_lt hgt)
    exact ⟨c, h2, h1⟩

/-- Convergence for two valid deletes. -/
theorem conv_delete_delete (l : List Char) (a b : Operation)
    (hta : a.type = deleteKind) (htb : b.type = deleteKind)
    (ha0 : 0 ≤ a.position) (hb0 : 0 ≤ b.position)
    (han : a.position < (l.length : Int)) (hbn : b.position < (l.length : Int)) :
    ∃ c, apply2 l a (transformDeleteDelete a b).2 = (c, none) ∧
      apply2 l b (transformDeleteDelete a b).1 = (c, none) := by
  rcases lt_trichotomy a.position b.position with hlt | heq | hgt
  · have hT : transformDeleteDelete a b = (a, { b with position := b.position - 1 }) := by
      simp [transformDeleteDelete, hlt]
    rw [hT]
    exact conv_DD_shift2 l a b hta htb ha0 hbn hlt
  · have hT : transformDeleteDelete a b
        = ({ a with position := -1 }, { b with position := -1 }) := by
      simp [transformDeleteDelete, heq]
    rw [hT]
    have e1 : applyDoc l a = (delNat l a.position.toNat, none) :=
      applyDoc_delete_eq l a hta ha0 han
    have e3 : applyDoc l b = (delNat l b.position.toNat, none) :=
      applyDoc_delete_eq l b htb hb0 hbn
    refine ⟨delNat l a.position.toNat, ?_, ?_⟩
    · rw [apply2_ok l _ a _ e1, applyDoc_noop_eq _ _ (by simp)]
    · rw [apply2_ok l _ b _ e3, applyDoc_noop_eq _ _ (by simp), heq]
  · have hT : transformDeleteDelete a b = ({ a with position := a.position - 1 }, b) := by
      simp [transformDeleteDelete, hgt, show ¬a.position < b.position by omega]
    rw [hT]
    obtain ⟨c, h1, h2⟩ := conv_DD_shift2 l b a htb hta hb0 han hgt
    exact ⟨c, h2, h1⟩

/-- Convergence for a valid single-character insert against a valid
delete. -/
theorem conv_insert_delete (l : List Char) (a b : Operation)
    (hta : a.type = insertKind) (htb : b.type = deleteKind)
    (ha0 : 0 ≤ a.position) (hb0 : 0 ≤ b.position)
    (han : a.position ≤ (l.length : Int)) (hbn : b.position < (l.length : Int))
    (hca : a.char.data.length = 1) :
    ∃ c, apply2 l a (transformInsertDelete a b).2 = (c, none) ∧
      apply2 l b (transformInsertDelete a b).1 = (c, none) := by
  by_cases hle : a.position ≤ b.position
  · have hT : transformInsertDelete a b = (a, { b with position := b.position + 1 }) := by
      simp [transformInsertDelete, hle]
    rw [hT]
    exact conv_ID_le l a b hta htb ha0 hb0 hbn hca hle
  · have hT : transformInsertDelete a b = ({ a with position := a.position - 1 }, b) := by
      simp [transformInsertDelete, hle]
    rw [hT]
    exact conv_ID_gt l a b hta htb han hb0 hbn hca (by omega)

theorem Transform_ins_ins (a b : Operation)
    (hta : a.type = insertKind) (htb : b.type = insertKind) :
    Transform a b = transformInsertInsert a b := by
  simp [Transform, Operation.isInsert, hta, htb]

theorem Transform_del_del (a b : Operation)
    (hta : a.type = deleteKind) (htb : b.type = deleteKind) :
    Transform a b = transformDeleteDelete a b := by
  simp [Transform, Operation.isInsert, Operation.isDelete, hta, htb, insertKind, deleteKind]

theorem Transform_ins_del (a b : Operation)
    (hta : a.type = insertKind) (htb : b.type = deleteKind) :
    Transform a b = transformInsertDelete a b := by
  simp [Transform, Operation.isInsert, Operation.isDelete, hta, htb, insertKind, deleteKind]

theorem Transform_del_ins (a b : Operation)
    (hta : a.type = deleteKind) (htb : b.type = insertKind) :
    Transform a b = ((transformInsertDelete b a).2, (transformInsertDelete b a).1) := by
  simp [Transform, Operation.isInsert, Operation.isDelete, hta, htb, insertKind, deleteKind]

/-- Claim C1, as stated, is false: the transformer shifts positions by
exactly one, so an insert whose `char` does not hold exactly one
character breaks convergence.  Here `a` inserts the empty string at 0
and `b` inserts one character at 1 of the two-character document `AB`;
both positions are valid, yet the two application orders disagree
(`ABz` vs `AzB`). -/
theorem claim1_counterexample :
    validOp "AB".data ⟨insertKind, 0, "", "alice"⟩ ∧
    validOp "AB".data ⟨insertKind, 1, "z", "bob"⟩ ∧
    apply2 "AB".data ⟨insertKind, 0, "", "alice"⟩
        (Transform ⟨insertKind, 0, "", "alice"⟩ ⟨insertKind, 1, "z", "bob"⟩).2
      ≠ apply2 "AB".data ⟨insertKind, 1, "z", "bob"⟩
        (Transform ⟨insertKind, 0, "", "alice"⟩ ⟨insertKind, 1, "z", "bob"⟩).1 := by
  decide

/-- Claim C1 (amended): convergence of the transformer holds for every
pair of insert/delete operations with valid positions provided each
insert carries exactly one character (the data-model invariant on
`char`): applying `a` then `Transform(a,b).2` succeeds and yields the
same content as applying `b` then `Transform(a,b).1`. -/
theorem claim1_convergence_single_char (content : List Char) (a b : Operation)
    (ha : validOp content a) (hb : validOp content b)
    (hca : a.type = insertKind → a.char.data.length = 1)
    (hcb : b.type = insertKind → b.char.data.length = 1) :
    apply2 content a (Transform a b).2 = apply2 content b (Transform a b).1 ∧
    (apply2 content a (Transform a b).2).2 = none := by
  rcases ha with ⟨hta, ha0, han⟩ | ⟨hta, ha0, han⟩ <;>
    rcases hb with ⟨htb, hb0, hbn⟩ | ⟨htb, hb0, hbn⟩
  · rw [Transform_ins_ins a b hta htb]
    obtain ⟨c, h1, h2⟩ :=
      conv_insert_insert content a b hta htb ha0 hb0 han hbn (hca hta) (hcb htb)
    exact ⟨h1.trans h2.symm, congrArg Prod.snd h1⟩
  · rw [Transform_ins_del a b hta htb]
    obtain ⟨c, h1, h2⟩ :=
      conv_insert_delete content a b hta htb ha0 hb0 han hbn (hca hta)
    exact ⟨h1.trans h2.symm, congrArg Prod.snd h1⟩
  · rw [Transform_del_ins a b hta htb]
    obtain ⟨c, h1, h2⟩ :=
      conv_insert_delete content b a htb hta hb0 ha0 hbn han (hcb htb)
    exact ⟨h2.trans h1.symm, congrArg Prod.snd h2⟩
  · rw [Transform_del_del a b hta htb]
    obtain ⟨c, h1, h2⟩ :=
      conv_delete_delete content a b hta htb ha0 hb0 han hbn
    exact ⟨h1.trans h2.symm, congrArg Prod.snd h1⟩

/-- Witness for `claim1_convergence_single_char` at the spec's HELLO
scenario: Alice inserts `X` at 2, Bob deletes position 2, base
content `HELLO`. -/
theorem claim1_witness :
    apply2 "HELLO".data ⟨insertKind, 2, "X", "alice"⟩
        (Transform ⟨insertKind, 2, "X", "alice"⟩ ⟨deleteKind, 2, "", "bob"⟩).2
      = apply2 "HELLO".data ⟨deleteKind, 2, "", "bob"⟩
        (Transform ⟨insertKind, 2, "X", "alice"⟩ ⟨deleteKind, 2, "", "bob"⟩).1 ∧
    (apply2 "HELLO".data ⟨insertKind, 2, "X", "alice"⟩
        (Transform ⟨insertKind, 2, "X", "alice"⟩ ⟨deleteKind, 2, "", "bob"⟩).2).2 = none :=
  claim1_convergence_single_char "HELLO".data _ _ (by decide) (by decide)
    (fun _ => by decide) (fun h => absurd h (by decide))

/-- Claim C2, as stated, is false: when two inserts share a position
AND a user id, the tie-break `op1.UserID < op2.UserID` is false in
both argument orders, so the first argument is shifted both times and
the outputs are not mirror-swapped. -/
theorem claim2_counterexample :
    Transform ⟨insertKind, 0, "y", "u"⟩ ⟨insertKind, 0, "x", "u"⟩
      ≠ ((Transform ⟨insertKind, 0, "x", "u"⟩ ⟨insertKind, 0, "y", "u"⟩).2,
        (Transform ⟨insertKind, 0, "x", "u"⟩ ⟨insertKind, 0, "y", "u"⟩).1) := by
  have e1 : Transform ⟨insertKind, 0, "x", "u"⟩ ⟨insertKind, 0, "y", "u"⟩
      = (⟨insertKind, 1, "x", "u"⟩, ⟨insertKind, 0, "y", "u"⟩) := by
    simp [Transform, transformInsertInsert, Operation.isInsert, insertKind]
  have e2 : Transform ⟨insertKind, 0, "y", "u"⟩ ⟨insertKind, 0, "x", "u"⟩
      = (⟨insertKind, 1, "y", "u"⟩, ⟨insertKind, 0, "x", "u"⟩) := by
    simp [Transform, transformInsertInsert, Operation.isInsert, insertKind]
  rw [e1, e2]
  decide

/-- Claim C2 (amended): `Transform` is symmetric — swapping the
arguments swaps the two outputs — for every pair of insert/delete
operations, provided that two inserts at the same position carry
distinct user ids (the tie-break precondition). -/
theorem claim2_transform_symmetric (a b : Operation)
    (hta : a.type = insertKind ∨ a.type = deleteKind)
    (htb : b.type = insertKind ∨ b.type = deleteKind)
    (hne : a.type = insertKind → b.type = insertKind → a.position = b.position →
      a.userID ≠ b.userID) :
    Transform b a = ((Transform a b).2, (Transform a b).1) := by
  rcases hta with hta | hta <;> rcases htb with htb | htb
  · rw [Transform_ins_ins a b hta htb, Transform_ins_ins b a htb hta]
    rcases lt_trichotomy a.position b.position with hlt | heq | hgt
    · have h1 : transformInsertInsert a b = (a, { b with position := b.position + 1 }) := by
        simp [transformInsertInsert, hlt]
      have h2 : transformInsertInsert b a = ({ b with position := b.position + 1 }, a) := by
        simp [transformInsertInsert, show b.position > a.position from hlt,
          show ¬b.position < a.position by omega]
      rw [h1, h2]
    · rcases lt_trichotomy a.userID b.userID with hu | hu | hu
      · have h1 : transformInsertInsert a b = (a, { b with position := b.position + 1 }) := by
          simp [transformInsertInsert, heq, hu]
        have h2 : transformInsertInsert b a = ({ b with position := b.position + 1 }, a) := by
          simp [transformInsertInsert, heq.symm, show ¬b.userID < a.userID from not_lt.mpr hu.le]
        rw [h1, h2]
      · exact absurd hu (hne hta htb heq)
      · have h1 : transformInsertInsert a b = ({ a with position := a.position + 1 }, b) := by
          simp [transformInsertInsert, heq, show ¬a.userID < b.userID from not_lt.mpr hu.le]
        have h2 : transformInsertInsert b a = (b, { a with position := a.position + 1 }) := by
          simp [transformInsertInsert, heq.symm, hu]
        rw [h1, h2]
    · have h1 : transformInsertInsert a b = ({ a with position := a.position + 1 }, b) := by
        simp [transformInsertInsert, hgt, show ¬a.position < b.position by omega]
      have h2 : transformInsertInsert b a = (b, { a with position := a.position + 1 }) := by
        simp [transformInsertInsert, hgt]
      rw [h1, h2]
  · rw [Transform_ins_del a b hta htb, Transform_del_ins b a htb hta]
  · rw [Transform_del_ins a b hta htb, Transform_ins_del b a htb hta]
  · rw [Transform_del_del a b hta htb, Transform_del_del b a htb hta]
    rcases lt_trichotomy a.position b.position with hlt | heq | hgt
    · have h1 : transformDeleteDelete a b = (a, { b with position := b.position - 1 }) := by
        simp [transformDeleteDelete, hlt]
      have h2 : transformDeleteDelete b a = ({ b with position := b.position - 1 }, a) := by
        simp [transformDeleteDelete, show b.position > a.position from hlt,
          show ¬b.position < a.position by omega]
      rw [h1, h2]
    · have h1 : transformDeleteDelete a b
          = ({ a with position := -1 }, { b with position := -1 }) := by
        simp [transformDeleteDelete, heq]
      have h2 : transformDeleteDelete b a
          = ({ b with position := -1 }, { a with position := -1 }) := by
        simp [transformDeleteDelete, heq.symm]
      rw [h1, h2]
    · have h1 : transformDeleteDelete a b = ({ a with position := a.position - 1 }, b) := by
        simp [transformDeleteDelete, hgt, show ¬a.position < b.position by omega]
      have h2 : transformDeleteDelete b a = (b, { a with position := a.position - 1 }) := by
        simp [transformDeleteDelete, hgt]
      rw [h1, h2]

/-- Witness for `claim2_transform_symmetric`: an insert/insert pair at
the same position with distinct user ids. -/
theorem claim2_witness :
    Transform ⟨insertKind, 0, "y", "bob"⟩ ⟨insertKind, 0, "x", "alice"⟩
      = ((Transform ⟨insertKind, 0, "x", "alice"⟩ ⟨insertKind, 0, "y", "bob"⟩).2,
        (Transform ⟨insertKind, 0, "x", "alice"⟩ ⟨insertKind, 0, "y", "bob"⟩).1) :=
  claim2_transform_symmetric ⟨insertKind, 0, "x", "alice"⟩ ⟨insertKind, 0, "y", "bob"⟩
    (Or.inl rfl) (Or.inl rfl)
    (fun _ _ _ h => by
      have := congrArg String.data h
      simp at this)

theorem intRange_append (n : Nat) : ∀ s : Int, intRange s n ++ [s + n] = intRange s (n + 1) := by
  induction n with
  | zero => intro s; simp [intRange]
  | succ n ih =>
    intro s
    rw [intRange, intRange, List.cons_append, show s + (n + 1 : Nat) = (s + 1) + n by push_cast; ring]
    rw [ih (s + 1)]

theorem intRange_mem_le (n : Nat) : ∀ (s x : Int), x ∈ intRange s n → s ≤ x ∧ x ≤ s + n - 1 := by
  induction n with
  | zero => intro s x h; simp [intRange] at h
  | succ n ih =>
    intro s x h
    rw [intRange] at h
    rcases List.mem_cons.mp h with rfl | h
    · constructor <;> omega
    · have := ih (s + 1) x h
      push_cast
      push_cast at this
      omega

theorem queueApply_ok_eq (q : Queue) (op : Operation) (b : Int)
    (r : Queue × SequencedOperation) (h : queueApply q op b = .ok r) :
    r = queueApplyExec q op b := by
  unfold queueApply at h
  split at h
  · exact Except.noConfusion h
  · split at h
    · split at h
      · exact Except.noConfusion h
      · exact (Except.ok.inj h).symm
    · exact (Except.ok.inj h).symm

theorem QueueInv_addToHistory (cap : Int) (q : Queue) (so : SequencedOperation)
    (hsize : q.historySize = cap)
    (hmap : q.history.map (fun s => s.revision)
      = intRange (q.revision - q.history.length + 1) q.history.length)
    (hlen : q.history.length ≤ cap.toNat)
    (hso : so.revision = q.revision + 1) :
    QueueInv cap (addToHistory { q with revision := q.revision + 1 } so) := by
  have hm : (q.history ++ [so]).map (fun s => s.revision)
      = intRange (q.revision - q.history.length + 1) (q.history.length + 1) := by
    rw [List.map_append]
    simp only [List.map_cons, List.map_nil, hso]
    rw [hmap]
    rw [show ([q.revision + 1] : List Int)
      = [(q.revision - q.history.length + 1) + (q.history.length : Nat)] by
        rw [show ((q.revision - q.history.length + 1) + (q.history.length : Nat))
          = q.revision + 1 by omega]]
    exact intRange_append _ _
  unfold addToHistory
  dsimp only
  split
  case isTrue hgt =>
    refine ⟨hsize, ?_, ?_⟩
    · simp only [List.map_drop, hm]
      rw [show q.history.length + 1 = (q.history.length + 1 - 1) + 1 by omega] at hm ⊢
      rw [intRange]
      simp only [List.length_drop, List.length_append, List.length_cons, List.length_nil,
        List.drop_succ_cons, List.drop_nil, List.drop_zero]
      rw [show (q.revision + 1 - (q.history.length + 1 - 1 : Nat) + 1)
        = (q.revision - q.history.length + 1 + 1) by omega]
    · simp only [List.length_drop, List.length_append, List.length_cons, List.length_nil]
      omega
  case isFalse hle =>
    refine ⟨hsize, ?_, ?_⟩
    · simp only [hm, List.length_append, List.length_cons, List.length_nil]
      rw [show (q.revision + 1 - (q.history.length + 1 : Nat) + 1)
        = (q.revision - q.history.length + 1) by push_cast; omega]
    · simp only [List.length_append, List.length_cons, List.length_nil]
      simp only [List.length_append, List.length_cons, List.length_nil] at hle
      rw [hsize] at hle
      omega

theorem queueInv_exec (cap : Int) (q : Queue) (op : Operation) (b : Int)
    (h : QueueInv cap q) : QueueInv cap (queueApplyExec q op b).1 := by
  obtain ⟨hsize, hmap, hlen⟩ := h
  exact QueueInv_addToHistory cap q _ hsize hmap hlen rfl

theorem queueInv_applyState (cap : Int) (q : Queue) (op : Operation) (b : Int)
    (h : QueueInv cap q) : QueueInv cap (queueApplyState q op b) := by
  unfold queueApplyState
  cases he : queueApply q op b with
  | error e => exact h
  | ok r =>
    rw [queueApply_ok_eq q op b r he]
    exact queueInv_exec cap q op b h

theorem applySeq_inv (cap : Int) :
    ∀ (ops : List (Operation × Int)) (q : Queue), QueueInv cap q →
      QueueInv cap (applySeq q ops) := by
  intro ops
  induction ops with
  | nil => intro q h; exact h
  | cons p rest ih =>
    intro q h
    rw [applySeq, List.foldl_cons]
    exact ih _ (queueInv_applyState cap q p.1 p.2 h)

theorem queueInv_of_reachable (cap : Int) (q : Queue) (h : QueueReachable cap q) :
    QueueInv cap q := by
  obtain ⟨ops, hq⟩ := h
  rw [← hq]
  exact applySeq_inv cap ops _ ⟨rfl, by simp [newQueue, intRange], by simp [newQueue]⟩

theorem queueApply_nil (q : Queue) (op : Operation) (b : Int) (hh : q.history = []) :
    queueApply q op b
      = if b > q.revision then .error Err.futureRevision
        else .ok (queueApplyExec q op b) := by
  unfold queueApply
  rw [hh]

theorem queueApply_cons (q : Queue) (op : Operation) (b : Int)
    (h0 : SequencedOperation) (t : List SequencedOperation) (hh : q.history = h0 :: t) :
    queueApply q op b
      = if b > q.revision then .error Err.futureRevision
        else if b < q.revision ∧ b < h0.revision - 1 then .error Err.revisionTooOld
        else .ok (queueApplyExec q op b) := by
  unfold queueApply
  rw [hh]

/-- Claim C6: on a queue of capacity at least 1, after any sequence of
`Apply` calls, the history revisions form the contiguous ascending
range ending at the current revision (hence each is at most the
current revision) and the history never exceeds the capacity. -/
theorem claim6_queue_history_invariant (cap : Int) (q : Queue)
    (hcap : 1 ≤ cap) (hq : QueueReachable cap q) :
    (∀ so ∈ q.history, so.revision ≤ q.revision) ∧
    q.history.map (fun so => so.revision)
      = intRange (q.revision - q.history.length + 1) q.history.length ∧
    (q.history.length : Int) ≤ cap := by
  obtain ⟨hsize, hmap, hlen⟩ := queueInv_of_reachable cap q hq
  refine ⟨?_, hmap, by omega⟩
  intro so hso
  have hmem : so.revision ∈ q.history.map (fun s => s.revision) :=
    List.mem_map_of_mem _ hso
  rw [hmap] at hmem
  have := intRange_mem_le q.history.length _ _ hmem
  omega

/-- Witness for `claim6_queue_history_invariant`: capacity 2, three
sequential deletes. -/
theorem claim6_witness :
    (∀ so ∈ (applySeq (newQueue 2)
        [(⟨deleteKind, 0, "", "u"⟩, 0), (⟨deleteKind, 0, "", "u"⟩, 1),
          (⟨deleteKind, 0, "", "u"⟩, 2)]).history,
      so.revision ≤ (applySeq (newQueue 2)
        [(⟨deleteKind, 0, "", "u"⟩, 0), (⟨deleteKind, 0, "", "u"⟩, 1),
          (⟨deleteKind, 0, "", "u"⟩, 2)]).revision) ∧
    (applySeq (newQueue 2)
        [(⟨deleteKind, 0, "", "u"⟩, 0), (⟨deleteKind, 0, "", "u"⟩, 1),
          (⟨deleteKind, 0, "", "u"⟩, 2)]).history.map (fun so => so.revision)
      = intRange ((applySeq (newQueue 2)
          [(⟨deleteKind, 0, "", "u"⟩, 0), (⟨deleteKind, 0, "", "u"⟩, 1),
            (⟨deleteKind, 0, "", "u"⟩, 2)]).revision
          - (applySeq (newQueue 2)
            [(⟨deleteKind, 0, "", "u"⟩, 0), (⟨deleteKind, 0, "", "u"⟩, 1),
              (⟨deleteKind, 0, "", "u"⟩, 2)]).history.length + 1)
          (applySeq (newQueue 2)
            [(⟨deleteKind, 0, "", "u"⟩, 0), (⟨deleteKind, 0, "", "u"⟩, 1),
              (⟨deleteKind, 0, "", "u"⟩, 2)]).history.length ∧
    ((applySeq (newQueue 2)
        [(⟨deleteKind, 0, "", "u"⟩, 0), (⟨deleteKind, 0, "", "u"⟩, 1),
          (⟨deleteKind, 0, "", "u"⟩, 2)]).history.length : Int) ≤ 2 :=
  claim6_queue_history_invariant 2 _ (by decide)
    ⟨[(⟨deleteKind, 0, "", "u"⟩, 0), (⟨deleteKind, 0, "", "u"⟩, 1),
      (⟨deleteKind, 0, "", "u"⟩, 2)], rfl⟩

/-- Claim C3: on any reachable queue state, `Apply` fails with
`RevisionTooOld` exactly when the base revision is below the current
revision and below `oldest - 1`, where `oldest` is the revision of the
first retained history entry (so never when the history is empty); and
`Apply` at base revision `oldest - 1` succeeds. -/
theorem claim3_revision_too_old (cap : Int) (q : Queue) (hq : QueueReachable cap q)
    (op : Operation) (baseRevision : Int) :
    (queueApply q op baseRevision = .error Err.revisionTooOld
      ↔ baseRevision < q.revision ∧
        ∃ h0, q.history.head? = some h0 ∧ baseRevision < h0.revision - 1) ∧
    (∀ h0, q.history.head? = some h0 →
      ∃ r, queueApply q op (h0.revision - 1) = .ok r) := by
  obtain ⟨hsize, hmap, hlen⟩ := queueInv_of_reachable cap q hq
  constructor
  · cases hh : q.history with
    | nil =>
      rw [queueApply_nil q op baseRevision hh]
      split_ifs with h1
      · constructor
        · intro h; simp at h
        · rintro ⟨hlt, _⟩; omega
      · constructor
        · intro h; simp at h
        · rintro ⟨_, h0, hhead, _⟩
          simp at hhead
    | cons h0 t =>
      rw [queueApply_cons q op baseRevision h0 t hh]
      split_ifs with h1 h2
      · constructor
        · intro h; simp at h
        · rintro ⟨hlt, _⟩; omega
      · constructor
        · intro _; exact ⟨h2.1, h0, rfl, h2.2⟩
        · intro _; rfl
      · constructor
        · intro h; simp at h
        · rintro ⟨hlt, h0', hhead, hlt2⟩
          rw [show h0' = h0 from by simpa using hhead.symm] at hlt2
          exact h2 ⟨hlt, hlt2⟩
  · intro h0 hhead
    cases hh : q.history with
    | nil => rw [hh] at hhead; simp at hhead
    | cons h0' t =>
      rw [hh] at hhead
      have hh0 : h0' = h0 := by simpa using hhead
      subst hh0
      have hmem : h0'.revision ∈ q.history.map (fun s => s.revision) :=
        List.mem_map_of_mem _ (by rw [hh]; exact List.mem_cons_self h0' t)
      rw [hmap] at hmem
      have hb := intRange_mem_le q.history.length _ _ hmem
      have hL : 1 ≤ q.history.length := by rw [hh]; simp
      rw [queueApply_cons q op _ h0' t hh]
      rw [if_neg (by omega), if_neg (by rintro ⟨_, hx⟩; omega)]
      exact ⟨_, rfl⟩

/-- Witness for `claim3_revision_too_old`: capacity 1, two sequential
deletes; the history retains only revision 2, and the theorem's
conclusions are evaluated below in `claim3` examples. -/
theorem claim3_witness :
    ((queueApply (applySeq (newQueue 1)
          [(⟨deleteKind, 0, "", "u"⟩, 0), (⟨deleteKind, 0, "", "u"⟩, 1)])
        ⟨deleteKind, 0, "", "u"⟩ 0 = .error Err.revisionTooOld
      ↔ (0 : Int) < (applySeq (newQueue 1)
          [(⟨deleteKind, 0, "", "u"⟩, 0), (⟨deleteKind, 0, "", "u"⟩, 1)]).revision ∧
        ∃ h0, (applySeq (newQueue 1)
          [(⟨deleteKind, 0, "", "u"⟩, 0), (⟨deleteKind, 0, "", "u"⟩, 1)]).history.head?
            = some h0 ∧ (0 : Int) < h0.revision - 1)) ∧
    (∀ h0, (applySeq (newQueue 1)
        [(⟨deleteKind, 0, "", "u"⟩, 0), (⟨deleteKind, 0, "", "u"⟩, 1)]).history.head?
          = some h0 →
      ∃ r, queueApply (applySeq (newQueue 1)
          [(⟨deleteKind, 0, "", "u"⟩, 0), (⟨deleteKind, 0, "", "u"⟩, 1)])
        ⟨deleteKind, 0, "", "u"⟩ (h0.revision - 1) = .ok r) :=
  claim3_revision_too_old 1 _
    ⟨[(⟨deleteKind, 0, "", "u"⟩, 0), (⟨deleteKind, 0, "", "u"⟩, 1)], rfl⟩
    ⟨deleteKind, 0, "", "u"⟩ 0

theorem applyDoc_err_fst (content : List Char) (op : Operation) (e : Err)
    (he : (applyDoc content op).2 = some e) : (applyDoc content op).1 = content := by
  unfold applyDoc applyInsertD applyDeleteD at he ⊢
  split_ifs at he ⊢ <;> simp_all

/-- Claim C5: the `Document.Apply` contract.  A negative position is a
no-op (success, content unchanged); for a non-negative position,
`InvalidPosition` is returned exactly when an insert targets a
position above the length or a delete targets one at or above it;
a tag other than Insert/Delete yields `UnknownKind`; and every error
leaves the content unchanged. -/
theorem claim5_document_apply_contract (content : List Char) (op : Operation) :
    (op.position < 0 → applyDoc content op = (content, none)) ∧
    (0 ≤ op.position →
      ((applyDoc content op).2 = some Err.invalidPosition ↔
        (op.type = insertKind ∧ op.position > (content.length : Int)) ∨
        (op.type = deleteKind ∧ op.position ≥ (content.length : Int)))) ∧
    (0 ≤ op.position → op.type ≠ insertKind → op.type ≠ deleteKind →
      (applyDoc content op).2 = some Err.unknownKind) ∧
    (∀ e, (applyDoc content op).2 = some e → (applyDoc content op).1 = content) := by
  refine ⟨fun h => applyDoc_noop_eq content op h, ?_, ?_,
    fun e he => applyDoc_err_fst content op e he⟩
  · intro h0
    have hnlt : ¬op.position < 0 := by omega
    by_cases ht : op.type = insertKind
    · by_cases hb : op.position > (content.length : Int)
      · have h : applyDoc content op = (content, some Err.invalidPosition) := by
          simp [applyDoc, Operation.isNoop, hnlt, ht, applyInsertD, hb]
        rw [h]
        simp [ht, hb]
      · have h : (applyDoc content op).2 = none := by
          simp [applyDoc, Operation.isNoop, hnlt, ht, applyInsertD, hb]
        rw [h]
        constructor
        · intro hc; exact Option.noConfusion hc
        · rintro (⟨_, hc⟩ | ⟨hd, _⟩)
          · exact absurd hc hb
          · rw [ht] at hd; exact absurd hd (by decide)
    · by_cases htd : op.type = deleteKind
      · by_cases hb : op.position ≥ (content.length : Int)
        · have h : applyDoc content op = (content, some Err.invalidPosition) := by
            simp [applyDoc, Operation.isNoop, hnlt, htd, applyDeleteD, hb,
              show deleteKind ≠ insertKind by decide]
          rw [h]
          simp [htd, hb, ht]
        · have h : (applyDoc content op).2 = none := by
            simp [applyDoc, Operation.isNoop, hnlt, htd, applyDeleteD, hb,
              show deleteKind ≠ insertKind by decide]
          rw [h]
          constructor
          · intro hc; exact Option.noConfusion hc
          · rintro (⟨hi, _⟩ | ⟨_, hc⟩)
            · exact absurd hi ht
            · exact absurd hc hb
      · have h : applyDoc content op = (content, some Err.unknownKind) := by
          simp [applyDoc, Operation.isNoop, hnlt, ht, htd]
        rw [h]
        constructor
        · intro hc; simp at hc
        · rintro (⟨hi, _⟩ | ⟨hd, _⟩)
          · exact absurd hi ht
          · exact absurd hd htd
  · intro h0 ht htd
    simp [applyDoc, Operation.isNoop, show ¬op.position < 0 by omega, ht, htd]

/-- Witness for `claim5_document_apply_contract`: an out-of-range
insert on `ab` fails with `InvalidPosition` leaving the content
unchanged, and a negative-position operation is a silent no-op. -/
theorem claim5_witness :
    applyDoc "ab".data ⟨insertKind, 5, "x", "u"⟩ = ("ab".data, some Err.invalidPosition) ∧
    applyDoc "ab".data ⟨deleteKind, -3, "", "u"⟩ = ("ab".data, none) := by
  constructor
  · have h := claim5_document_apply_contract "ab".data ⟨insertKind, 5, "x", "u"⟩
    have hsnd : (applyDoc "ab".data ⟨insertKind, 5, "x", "u"⟩).2 = some Err.invalidPosition :=
      (h.2.1 (by decide)).mpr (Or.inl ⟨rfl, by decide⟩)
    exact Prod.ext (h.2.2.2 _ hsnd) hsnd
  · exact (claim5_document_apply_contract "ab".data ⟨deleteKind, -3, "", "u"⟩).1 (by decide)

/-- Claim C8, as stated, is false: the document stores Go runes (code
points), so inserting the flag emoji — one user-perceived character
made of two code points — into an empty document succeeds but yields
length 2, not 1. -/
theorem claim8_counterexample :
    (applyDoc [] ⟨insertKind, 0, "🇺🇸", "u"⟩).2 = none ∧
    docLen (applyDoc [] ⟨insertKind, 0, "🇺🇸", "u"⟩).1 = 2 ∧
    docLen (applyDoc [] ⟨insertKind, 0, "🇺🇸", "u"⟩).1 ≠ docLen ([] : List Char) + 1 := by
  decide

/-- Claim C8 (amended): indexing is by Unicode code point (Go rune),
independent of byte encoding: a valid insert grows the length by the
number of code points of `char` — 1 for a single-code-point character
but 2 for a two-code-point grapheme such as a flag emoji — and a
valid delete shrinks it by exactly one. -/
theorem claim8_code_point_indexing (content : List Char) (op : Operation)
    (h0 : 0 ≤ op.position) :
    (op.type = insertKind → op.position ≤ (content.length : Int) →
      (applyDoc content op).2 = none ∧
      docLen (applyDoc content op).1 = docLen content + op.char.data.length) ∧
    (op.type = deleteKind → op.position < (content.length : Int) →
      (applyDoc content op).2 = none ∧
      docLen (applyDoc content op).1 = docLen content - 1) := by
  constructor
  · intro ht hn
    rw [applyDoc_insert_eq content op ht h0 hn]
    refine ⟨rfl, ?_⟩
    have h := insNat_length content op.position.toNat op.char.data (by omega)
    simpa [docLen] using h
  · intro ht hn
    rw [applyDoc_delete_eq content op ht h0 hn]
    refine ⟨rfl, ?_⟩
    have h := delNat_length content op.position.toNat (by omega)
    simpa [docLen] using h

/-- Witness for `claim8_code_point_indexing`: inserting the flag emoji
at position 1 of `ab`. -/
theorem claim8_witness :
    ((⟨insertKind, 1, "🇺🇸", "u"⟩ : Operation).type = insertKind →
      ((1 : Int) ≤ ("ab".data.length : Int)) →
      (applyDoc "ab".data ⟨insertKind, 1, "🇺🇸", "u"⟩).2 = none ∧
      docLen (applyDoc "ab".data ⟨insertKind, 1, "🇺🇸", "u"⟩).1
        = docLen "ab".data + (⟨insertKind, 1, "🇺🇸", "u"⟩ : Operation).char.data.length) ∧
    ((⟨insertKind, 1, "🇺🇸", "u"⟩ : Operation).type = deleteKind →
      ((1 : Int) < ("ab".data.length : Int)) →
      (applyDoc "ab".data ⟨insertKind, 1, "🇺🇸", "u"⟩).2 = none ∧
      docLen (applyDoc "ab".data ⟨insertKind, 1, "🇺🇸", "u"⟩).1 = docLen "ab".data - 1) :=
  claim8_code_point_indexing "ab".data ⟨insertKind, 1, "🇺🇸", "u"⟩ (by decide)

theorem foldlMaxRevs (ops : List SequencedOperation) : ∀ base : Int,
    (∀ so ∈ ops, base ≤ so.revision) →
    ops.Pairwise (fun x y => x.revision ≤ y.revision) →
    (ops.map (fun so => so.revision)).foldl max base
      = (ops.getLast?.map (fun so => so.revision)).getD base := by
  induction ops with
  | nil => intro base _ _; rfl
  | cons a l ih =>
    intro base hbase hp
    obtain ⟨ha, hp'⟩ := List.pairwise_cons.mp hp
    rw [List.map_cons, List.foldl_cons]
    rw [show max base a.revision = a.revision from by
      have := hbase a (List.mem_cons_self a l); omega]
    rw [ih a.revision ha hp']
    cases hl : l.getLast? with
    | none =>
      have hnil : l = [] := by simpa using hl
      subst hnil
      simp
    | some o =>
      cases l with
      | nil => simp at hl
      | cons b l' =>
        rw [List.getLast?_cons_cons, hl]
        simp

theorem latestRevisionD_eq_spec (d : DocData)
    (hsort : d.operations.Pairwise (fun x y => x.revision ≤ y.revision))
    (hsnap : ∀ s, d.snapshot = some s → ∀ so ∈ d.operations, s.revision ≤ so.revision) :
    latestRevisionD d = specLatestRevision d := by
  cases hops : d.operations with
  | nil =>
    cases hsnapd : d.snapshot with
    | none => simp [latestRevisionD, specLatestRevision, hops, hsnapd]
    | some s => simp [latestRevisionD, specLatestRevision, hops, hsnapd]
  | cons o1 os =>
    unfold specLatestRevision
    rw [hops]
    rw [List.map_cons, List.cons_append]
    show latestRevisionD d
      = ((os.map (fun so => so.revision))
          ++ (match d.snapshot with | some s => [s.revision] | none => [])).foldl max o1.revision
    rw [List.foldl_append]
    have hpc := List.pairwise_cons.mp (hops ▸ hsort)
    rw [foldlMaxRevs os o1.revision (fun so h => hpc.1 so h) hpc.2]
    unfold latestRevisionD
    rw [hops]
    cases hl : os.getLast? with
    | none =>
      have hnil : os = [] := by simpa using hl
      subst hnil
      cases hsnapd : d.snapshot with
      | none => simp
      | some s =>
        have hs := hsnap s hsnapd o1 (by rw [hops]; exact List.mem_cons_self _ _)
        simp
        omega
    | some o =>
      cases os with
      | nil => simp at hl
      | cons b os' =>
        rw [List.getLast?_cons_cons, hl]
        cases hsnapd : d.snapshot with
        | none => simp
        | some s =>
          have hmem : o ∈ b :: os' := by
            have h1 := List.getLast_mem (List.cons_ne_nil b os')
            rwa [(List.getLast_eq_iff_getLast?_eq_some (List.cons_ne_nil b os')).mpr hl] at h1
          have hs := hsnap s hsnapd o (by rw [hops]; exact List.mem_cons_of_mem _ hmem)
          simp
          omega

/-- Claim C7, as stated, is false: `latestRevision` returns the
revision of the *last appended* operation, not the maximum.  Two
appends with revisions 5 then 3 — both accepted by the Store contract,
which guarantees nothing about revision values — make it return 3
while the maximum over the log is 5. -/
theorem claim7_counterexample :
    claim7Store "d"
      = some ⟨none, [⟨⟨insertKind, 0, "a", "u"⟩, 5⟩, ⟨⟨insertKind, 0, "b", "u"⟩, 3⟩]⟩ ∧
    latestRevision claim7Store "d" = .ok 3 ∧
    specLatestRevision
      ⟨none, [⟨⟨insertKind, 0, "a", "u"⟩, 5⟩, ⟨⟨insertKind, 0, "b", "u"⟩, 3⟩]⟩ = 5 ∧
    latestRevision claim7Store "d"
      ≠ .ok (specLatestRevision
          ⟨none, [⟨⟨insertKind, 0, "a", "u"⟩, 5⟩, ⟨⟨insertKind, 0, "b", "u"⟩, 3⟩]⟩) :=
  ⟨rfl, rfl, rfl, fun h => absurd (Except.ok.inj h) (by decide)⟩

/-- Claim C7 (amended): when the log's revisions are ascending and
dominate the snapshot's revision (the discipline the callers maintain
and pruning re-establishes), `latestRevision` returns the maximum
revision over all logged operations and the snapshot, and 0 when
there are neither. -/
theorem claim7_latest_revision_max (st : Store) (id : String) (d : DocData)
    (hdoc : st id = some d)
    (hsort : d.operations.Pairwise (fun x y => x.revision ≤ y.revision))
    (hsnap : ∀ s, d.snapshot = some s → ∀ so ∈ d.operations, s.revision ≤ so.revision) :
    latestRevision st id = .ok (specLatestRevision d) := by
  unfold latestRevision
  rw [hdoc]
  show Except.ok (latestRevisionD d) = Except.ok (specLatestRevision d)
  rw [latestRevisionD_eq_spec d hsort hsnap]

/-- Witness for `claim7_latest_revision_max`: a snapshot at revision 2
plus logged revisions 3 and 4. -/
theorem claim7_witness :
    latestRevision
        (updateStore emptyStore "d"
          ⟨some ⟨"d", 2, "ab".data⟩,
            [⟨⟨insertKind, 0, "a", "u"⟩, 3⟩, ⟨⟨insertKind, 0, "b", "u"⟩, 4⟩]⟩) "d"
      = .ok (specLatestRevision
          ⟨some ⟨"d", 2, "ab".data⟩,
            [⟨⟨insertKind, 0, "a", "u"⟩, 3⟩, ⟨⟨insertKind, 0, "b", "u"⟩, 4⟩]⟩) :=
  claim7_latest_revision_max _ "d" _ rfl (by decide)
    (fun s hs so hso => by
      have hs' : s = ⟨"d", 2, "ab".data⟩ := (Option.some.inj hs).symm
      subst hs'
      simp at hso
      rcases hso with h | h <;> rw [h] <;> decide)

theorem mkLog_isEmpty (ops : List Operation) (r : Int) :
    (mkLog ops r).isEmpty = ops.isEmpty := by
  cases ops <;> simp [mkLog]

theorem mkLog_take (ops : List Operation) :
    ∀ (r : Int) (R : Nat), (mkLog ops r).take R = mkLog (ops.take R) r := by
  induction ops with
  | nil => intro r R; simp [mkLog]
  | cons o rest ih =>
    intro r R
    cases R with
    | zero => simp [mkLog]
    | succ R => simp [mkLog, ih (r + 1) R]

theorem mkLog_drop (ops : List Operation) :
    ∀ (r : Int) (R : Nat), (mkLog ops r).drop R = mkLog (ops.drop R) (r + R) := by
  induction ops with
  | nil => intro r R; simp [mkLog]
  | cons o rest ih =>
    intro r R
    cases R with
    | zero => simp [mkLog]
    | succ R =>
      rw [mkLog, List.drop_succ_cons, List.drop_succ_cons, ih (r + 1) R]
      rw [show r + 1 + (R : Nat) = r + ((R : Nat) + 1) by push_cast; ring]
      rfl

theorem mkLog_filter (ops : List Operation) :
    ∀ (s R : Int), (mkLog ops s).filter (fun op => op.revision > R)
      = if R < s then mkLog ops s else mkLog (ops.drop (R + 1 - s).toNat) (R + 1) := by
  induction ops with
  | nil =>
    intro s R
    simp only [mkLog, List.filter_nil]
    split
    · rfl
    · simp [mkLog]
  | cons o rest ih =>
    intro s R
    rw [mkLog, List.filter_cons]
    by_cases hRs : R < s
    · rw [if_pos (by simpa using hRs), ih (s + 1) R, if_pos (by omega), if_pos hRs]
    · rw [if_neg (by simpa using hRs), ih (s + 1) R, if_neg hRs]
      by_cases hRs1 : R < s + 1
      · rw [if_pos hRs1]
        have hse : R = s := by omega
        rw [hse, show (s + 1 - s).toNat = 1 by omega]
        rfl
      · rw [if_neg hRs1]
        rw [show (R + 1 - s).toNat = (R + 1 - (s + 1)).toNat + 1 by omega]
        rfl

theorem replayLoop_append (applyOp : ApplyFunc) (l1 l2 : List SequencedOperation) :
    ∀ (c : List Char) (r : Int),
      replayLoop applyOp c r (l1 ++ l2)
        = match replayLoop applyOp c r l1 with
          | .ok (c2, r2) => replayLoop applyOp c2 r2 l2
          | .error e => .error e := by
  induction l1 with
  | nil => intro c r; rfl
  | cons so l1 ih =>
    intro c r
    rw [List.cons_append, replayLoop, replayLoop]
    cases happ : applyOp c ⟨so.op.type, so.op.position, so.op.char⟩ with
    | error e => rfl
    | ok c2 => exact ih c2 so.revision

theorem replayLoop_rev (ops : List Operation) :
    ∀ (applyOp : ApplyFunc) (c : List Char) (r : Int) (res : List Char × Int),
      replayLoop applyOp c r (mkLog ops (r + 1)) = .ok res → res.2 = r + ops.length := by
  induction ops with
  | nil =>
    intro applyOp c r res h
    rw [mkLog, replayLoop] at h
    rw [← Except.ok.inj h]
    simp
  | cons o rest ih =>
    intro applyOp c r res h
    rw [mkLog, replayLoop] at h
    cases happ : applyOp c ⟨o.type, o.position, o.char⟩ with
    | error e =>
      rw [happ] at h
      exact Except.noConfusion h
    | ok c2 =>
      rw [happ] at h
      have := ih applyOp c2 (r + 1) res h
      rw [this, List.length_cons]
      push_cast
      ring

theorem updateStore_self (st : Store) (id : String) (d : DocData) :
    updateStore st id d id = some d := by
  simp [updateStore]

/-- Claim C4: snapshot round-trip with pruning.  For a document whose
log carries ascending revisions `1..n`, saving a snapshot at revision
`R` with the content obtained by replaying the first `R` operations
(1) succeeds, (2) leaves exactly the operations with revision `> R`
in the log, (3) makes a subsequent load return exactly what a load
without the snapshot returns, and (4) that load yields the replayed
content at revision `n` whenever the full replay succeeds. -/
theorem claim4_snapshot_roundtrip (st0 : Store) (id : String) (ops : List Operation)
    (R : Nat) (c : List Char) (r0 : Int) (applyOp : ApplyFunc)
    (hdoc : st0 id = some ⟨none, mkLog ops 1⟩) (hR : R ≤ ops.length)
    (hc : replayLoop applyOp [] 0 ((mkLog ops 1).take R) = .ok (c, r0)) :
    ∃ st1, saveSnapshot st0 id (R : Int) c = .ok st1 ∧
      st1 id = some ⟨some ⟨id, (R : Int), c⟩, (mkLog ops 1).drop R⟩ ∧
      loaderLoad st1 id applyOp = loaderLoad st0 id applyOp ∧
      (∀ cn rn, replayLoop applyOp [] 0 (mkLog ops 1) = .ok (cn, rn) →
        loaderLoad st0 id applyOp = .ok ⟨cn, (ops.length : Int), ops.isEmpty⟩) := by
  have hr0 : r0 = (R : Int) := by
    have hrev := replayLoop_rev (ops.take R) applyOp [] 0 (c, r0)
      (by rw [show ((0 : Int) + 1) = 1 by norm_num, ← mkLog_take ops 1 R]; exact hc)
    simpa [List.length_take, Nat.min_eq_left hR] using hrev
  subst hr0
  have hfd : (mkLog ops 1).filter (fun op => op.revision > (R : Int)) = (mkLog ops 1).drop R := by
    rw [mkLog_filter ops 1 R, mkLog_drop ops 1 R]
    by_cases hR0 : (R : Int) < 1
    · have hR00 : R = 0 := by omega
      subst hR00
      rw [if_pos hR0]
      simp
    · rw [if_neg hR0, show ((R : Int) + 1 - 1).toNat = R by omega,
        show ((R : Int) + 1) = 1 + (R : Nat) by push_cast; ring]
  have hprune : pruneOperations ⟨some ⟨id, (R : Int), c⟩, mkLog ops 1⟩ (R : Int)
      = ⟨some ⟨id, (R : Int), c⟩, (mkLog ops 1).drop R⟩ := by
    unfold pruneOperations
    rw [show ({ snapshot := some ⟨id, (R : Int), c⟩, operations := mkLog ops 1 } :
      DocData).operations = mkLog ops 1 from rfl, hfd]
  have hsave : saveSnapshot st0 id (R : Int) c
      = .ok (updateStore st0 id ⟨some ⟨id, (R : Int), c⟩, (mkLog ops 1).drop R⟩) := by
    unfold saveSnapshot
    rw [hdoc]
    show Except.ok (updateStore st0 id
      (pruneOperations ⟨some ⟨id, (R : Int), c⟩, mkLog ops 1⟩ (R : Int))) = _
    rw [hprune]
  refine ⟨_, hsave, updateStore_self st0 id _, ?_, ?_⟩
  · -- load after snapshot = load without snapshot
    have hkeep : ((mkLog ops 1).drop R).filter (fun op => op.revision > (R : Int))
        = (mkLog ops 1).drop R := by
      rw [mkLog_drop ops 1 R, mkLog_filter (ops.drop R) (1 + R) (R : Int),
        if_pos (by push_cast; omega)]
    have hload1 : loaderLoad (updateStore st0 id
        ⟨some ⟨id, (R : Int), c⟩, (mkLog ops 1).drop R⟩) id applyOp
        = match replayLoop applyOp c (R : Int) ((mkLog ops 1).drop R) with
          | .error e => .error e
          | .ok (c2, rev) =>
            .ok ⟨c2, rev, ((R : Int) == 0) && ((mkLog ops 1).drop R).isEmpty⟩ := by
      unfold loaderLoad loadSnapshot
      rw [updateStore_self]
      show loaderLoadFrom _ id applyOp c (R : Int) = _
      unfold loaderLoadFrom loadOperations
      rw [updateStore_self]
      show (match replayLoop applyOp c (R : Int)
        (((mkLog ops 1).drop R).filter
          (fun op : SequencedOperation => op.revision > (R : Int))) with
        | Except.error e => Except.error e
        | Except.ok (c2, rev) => Except.ok (⟨c2, rev, ((R : Int) == 0)
            && (((mkLog ops 1).drop R).filter (fun op : SequencedOperation =>
              op.revision > (R : Int))).isEmpty⟩ : LoadResult)) = _
      rw [hkeep]
    have hload0 : loaderLoad st0 id applyOp
        = match replayLoop applyOp [] 0 (mkLog ops 1) with
          | .error e => .error e
          | .ok (c2, rev) => .ok ⟨c2, rev, ((0 : Int) == 0) && (mkLog ops 1).isEmpty⟩ := by
      unfold loaderLoad loadSnapshot
      rw [hdoc]
      show loaderLoadFrom st0 id applyOp [] 0 = _
      unfold loaderLoadFrom loadOperations
      rw [hdoc]
      show (match replayLoop applyOp [] 0
        ((mkLog ops 1).filter
          (fun op : SequencedOperation => op.revision > (0 : Int))) with
        | Except.error e => Except.error e
        | Except.ok (c2, rev) => Except.ok (⟨c2, rev, ((0 : Int) == 0)
            && ((mkLog ops 1).filter (fun op : SequencedOperation =>
              op.revision > (0 : Int))).isEmpty⟩ : LoadResult)) = _
      rw [mkLog_filter ops 1 0, if_pos (by omega)]
    have hsplit : replayLoop applyOp [] 0 (mkLog ops 1)
        = replayLoop applyOp c (R : Int) ((mkLog ops 1).drop R) := by
      conv_lhs => rw [← List.take_append_drop R (mkLog ops 1)]
      rw [replayLoop_append applyOp _ _ [] 0, hc]
    have hisNew : (((R : Int) == 0) && ((mkLog ops 1).drop R).isEmpty)
        = (((0 : Int) == 0) && (mkLog ops 1).isEmpty) := by
      by_cases hR0 : R = 0
      · subst hR0
        simp
      · have h1 : ((R : Int) == 0) = false := by
          simp only [beq_eq_false_iff_ne, ne_eq]
          exact_mod_cast hR0
        have h2 : (mkLog ops 1).isEmpty = false := by
          rw [mkLog_isEmpty]
          cases ops with
          | nil => simp at hR; omega
          | cons _ _ => simp
        rw [h1, h2]
        simp
    rw [hload1, hload0, hsplit, hisNew]
  · -- load without snapshot yields the full replay at revision n
    intro cn rn hfull
    have hrn : rn = (ops.length : Int) := by
      have := replayLoop_rev ops applyOp [] 0 (cn, rn) hfull
      simpa using this
    subst hrn
    have hload0 : loaderLoad st0 id applyOp
        = match replayLoop applyOp [] 0 (mkLog ops 1) with
          | .error e => .error e
          | .ok (c2, rev) => .ok ⟨c2, rev, ((0 : Int) == 0) && (mkLog ops 1).isEmpty⟩ := by
      unfold loaderLoad loadSnapshot
      rw [hdoc]
      show loaderLoadFrom st0 id applyOp [] 0 = _
      unfold loaderLoadFrom loadOperations
      rw [hdoc]
      show (match replayLoop applyOp [] 0
        ((mkLog ops 1).filter
          (fun op : SequencedOperation => op.revision > (0 : Int))) with
        | Except.error e => Except.error e
        | Except.ok (c2, rev) => Except.ok (⟨c2, rev, ((0 : Int) == 0)
            && ((mkLog ops 1).filter (fun op : SequencedOperation =>
              op.revision > (0 : Int))).isEmpty⟩ : LoadResult)) = _
      rw [mkLog_filter ops 1 0, if_pos (by omega)]
    rw [hload0, hfull]
    show Except.ok (⟨cn, (ops.length : Int),
      ((0 : Int) == 0) && (mkLog ops 1).isEmpty⟩ : LoadResult) = _
    rw [mkLog_isEmpty]
    simp

/-- Witness for `claim4_snapshot_roundtrip`: log `a`@1, `b`@2 for
document `doc`, snapshot at revision 1 with content `a`. -/
theorem claim4_witness :
    ∃ st1, saveSnapshot (updateStore emptyStore "doc"
        ⟨none, mkLog [⟨insertKind, 0, "a", "u"⟩, ⟨insertKind, 1, "b", "u"⟩] 1⟩) "doc"
        ((1 : Nat) : Int) "a".data = .ok st1 ∧
      st1 "doc" = some ⟨some ⟨"doc", ((1 : Nat) : Int), "a".data⟩,
        (mkLog [⟨insertKind, 0, "a", "u"⟩, ⟨insertKind, 1, "b", "u"⟩] 1).drop 1⟩ ∧
      loaderLoad st1 "doc" sessionApplyOp
        = loaderLoad (updateStore emptyStore "doc"
          ⟨none, mkLog [⟨insertKind, 0, "a", "u"⟩, ⟨insertKind, 1, "b", "u"⟩] 1⟩) "doc"
          sessionApplyOp ∧
      (∀ cn rn, replayLoop sessionApplyOp [] 0
          (mkLog [⟨insertKind, 0, "a", "u"⟩, ⟨insertKind, 1, "b", "u"⟩] 1) = .ok (cn, rn) →
        loaderLoad (updateStore emptyStore "doc"
          ⟨none, mkLog [⟨insertKind, 0, "a", "u"⟩, ⟨insertKind, 1, "b", "u"⟩] 1⟩) "doc"
          sessionApplyOp
          = .ok ⟨cn, (([⟨insertKind, 0, "a", "u"⟩,
              ⟨insertKind, 1, "b", "u"⟩] : List Operation).length : Int),
            ([⟨insertKind, 0, "a", "u"⟩, ⟨insertKind, 1, "b", "u"⟩] :
              List Operation).isEmpty⟩) :=
  claim4_snapshot_roundtrip _ "doc" _ 1 "a".data 1 sessionApplyOp rfl (by decide) (by rfl)

theorem queueApply_error_cases (q : Queue) (op : Operation) (b : Int) (e : Err)
    (h : queueApply q op b = .error e) :
    e = Err.futureRevision ∨ e = Err.revisionTooOld := by
  unfold queueApply at h
  split at h
  · exact Or.inl (Except.error.inj h).symm
  · split at h
    · split at h
      · exact Or.inr (Except.error.inj h).symm
      · exact Except.noConfusion h
    · exact Except.noConfusion h

theorem applyDoc_error_cases (content : List Char) (op : Operation) (e : Err)
    (h : (applyDoc content op).2 = some e) :
    e = Err.invalidPosition ∨ e = Err.unknownKind := by
  unfold applyDoc applyInsertD applyDeleteD at h
  split_ifs at h <;> simp_all

theorem appendOperation_error_cases (st : Store) (id : String) (so : SequencedOperation)
    (e : Err) (h : appendOperation st id so = .error e) : e = Err.documentNotFound := by
  unfold appendOperation at h
  split at h
  · exact (Except.error.inj h).symm
  · exact Except.noConfusion h

theorem applyAndPersist_error_cases (s : SessionState) (op : Operation) (b : Int)
    (s1 : SessionState) (e : Err) (h : applyAndPersist s op b = (s1, .error e)) :
    e = Err.futureRevision ∨ e = Err.revisionTooOld ∨ e = Err.invalidPosition ∨
      e = Err.unknownKind ∨ e = Err.documentNotFound := by
  unfold applyAndPersist at h
  cases hq : queueApply s.queue op b with
  | error e2 =>
    rw [hq] at h
    have h2 := congrArg Prod.snd h
    rcases queueApply_error_cases s.queue op b e2 hq with h3 | h3 <;>
      rw [← Except.error.inj h2, h3]
    · exact Or.inl rfl
    · exact Or.inr (Or.inl rfl)
  | ok p =>
    obtain ⟨q2, seqOp⟩ := p
    rw [hq] at h
    dsimp only at h
    cases hd : applyDoc s.document seqOp.op with
    | mk c2 oe =>
      rw [hd] at h
      cases oe with
      | some e2 =>
        have h2 := congrArg Prod.snd h
        have h3 : e2 = Err.invalidPosition ∨ e2 = Err.unknownKind :=
          applyDoc_error_cases s.document seqOp.op e2 (by rw [hd])
        rcases h3 with h3 | h3 <;> rw [← Except.error.inj h2, h3]
        · exact Or.inr (Or.inr (Or.inl rfl))
        · exact Or.inr (Or.inr (Or.inr (Or.inl rfl)))
      | none =>
        cases ha : appendOperation s.store s.docID seqOp with
        | error e3 =>
          rw [ha] at h
          have h2 := congrArg Prod.snd h
          rw [← Except.error.inj h2, appendOperation_error_cases _ _ _ _ ha]
          exact Or.inr (Or.inr (Or.inr (Or.inr rfl)))
        | ok st2 =>
          rw [ha] at h
          exact Except.noConfusion (congrArg Prod.snd h)

/-- Claim C9: when the queue rejects the operation (future revision or
revision too old), `ApplyOperation` returns exactly that error and is
atomic — the session state (queue, document, store, snapshot policy)
is unchanged and no broadcast is emitted. -/
theorem claim9_sequencing_failure_atomic (s : SessionState) (clientID userID : String)
    (op : Operation) (baseRevision : Int) (e : Err)
    (hperm : checkWritePermission s userID = none) (hopen : s.closed = false)
    (hq : queueApply s.queue op baseRevision = .error e) :
    applyOperation s clientID userID op baseRevision = (s, [], .error e) := by
  unfold applyOperation applyAndPersist
  rw [hperm, hopen, hq]
  rfl

/-- Witness for `claim9_sequencing_failure_atomic`: a fresh session at
revision 0 rejects a base revision from the future and changes
nothing. -/
theorem claim9_witness :
    applyOperation ⟨"doc", [], newQueue 4, false, emptyStore, none, true, none⟩
        "c1" "u1" ⟨insertKind, 0, "x", "u1"⟩ 5
      = (⟨"doc", [], newQueue 4, false, emptyStore, none, true, none⟩, [],
        .error Err.futureRevision) :=
  claim9_sequencing_failure_atomic _ "c1" "u1" ⟨insertKind, 0, "x", "u1"⟩ 5
    Err.futureRevision rfl rfl rfl

/-- Claim C10: a session built without a permission checker never
fails with `AccessDenied`: `ApplyOperation` cannot return it for any
user, and `GetState` cannot either — indeed `GetState` succeeds for
every user whenever the session is open. -/
theorem claim10_no_permission_checker (s : SessionState) (hnone : s.permChecker = none)
    (clientID userID : String) (op : Operation) (baseRevision : Int) :
    (applyOperation s clientID userID op baseRevision).2.2 ≠ .error Err.accessDenied ∧
    getState s userID ≠ .error Err.accessDenied ∧
    (s.closed = false → getState s userID = .ok (s.document, s.queue.revision)) := by
  have hperm : checkWritePermission s userID = none := by
    unfold checkWritePermission
    rw [hnone]
  refine ⟨?_, ?_, ?_⟩
  · unfold applyOperation
    rw [hperm]
    dsimp only
    split
    · intro hcon
      exact absurd (Except.error.inj hcon) (by decide)
    · split
      · rename_i s1 e heq
        intro hcon
        have he := Except.error.inj hcon
        subst he
        rcases applyAndPersist_error_cases s op baseRevision s1 _ heq with h | h | h | h | h <;>
          exact absurd h (by decide)
      · rename_i s1 seqOp heq
        intro hcon
        exact Except.noConfusion hcon
  · unfold getState
    rw [hnone]
    cases hc : s.closed with
    | true =>
      intro hcon
      exact absurd (Except.error.inj hcon) (by decide)
    | false =>
      intro hcon
      exact Except.noConfusion hcon
  · intro hopen
    unfold getState
    rw [hnone, hopen]
    rfl

/-- Witness for `claim10_no_permission_checker`: an open session with
no checker; any user reads and writes. -/
theorem claim10_witness :
    (applyOperation ⟨"doc", "hi".data, newQueue 4, false, emptyStore, none, true, none⟩
        "c1" "anyone" ⟨insertKind, 0, "x", "anyone"⟩ 0).2.2 ≠ .error Err.accessDenied ∧
    getState ⟨"doc", "hi".data, newQueue 4, false, emptyStore, none, true, none⟩ "anyone"
      ≠ .error Err.accessDenied ∧
    ((false : Bool) = false →
      getState ⟨"doc", "hi".data, newQueue 4, false, emptyStore, none, true, none⟩ "anyone"
        = .ok ("hi".data, (newQueue 4).revision)) :=
  claim10_no_permission_checker
    ⟨"doc", "hi".data, newQueue 4, false, emptyStore, none, true, none⟩ rfl
    "c1" "anyone" ⟨insertKind, 0, "x", "anyone"⟩ 0

